import Mathlib

/-!
Shallow embedding of the IVX text-to-flowchart compiler
(src/grammar.ts, src/valid.ts, src/extension.ts graph section, and the
parser driver `parseivx`), together with theorems settling the frozen
claims about it.

Strings are modelled as `List Char` (`Str`), matching the character-by
character scans the source performs.  A JavaScript string field that can
be `undefined` but is only ever observed through `?? ''`, truthiness or
`includes` (node `meta`, edge `label`) is modelled as a plain `Str`, with
`[]` standing for `undefined`/`''` — the source never distinguishes the
two.
-/

namespace IVX

/-- Strings as character lists (JS strings are indexed char sequences). -/
abbrev Str := List Char

/-- Coerce a Lean string literal to the `Str` representation. -/
def str (s : String) : Str := s.toList

/-- The JS whitespace class `\s` / `trim` set, restricted to the ASCII
whitespace characters that can actually occur here. -/
def jsWs (c : Char) : Bool :=
  c = ' ' || c = '\t' || c = '\n' || c = '\r' || c = '\x0B' || c = '\x0C'

/-- JS `String.prototype.trimStart` (drop leading whitespace). -/
def trimStartStr (s : Str) : Str := s.dropWhile jsWs

/-- JS `String.prototype.trimEnd` (drop trailing whitespace). -/
def trimEndStr (s : Str) : Str := (s.reverse.dropWhile jsWs).reverse

/-- JS `String.prototype.trim`. -/
def trimStr (s : Str) : Str := trimEndStr (trimStartStr s)

/-- Does `pat` occur at the start of `s`? (helper for substring search) -/
def leadsWith : Str → Str → Bool
  | [], _ => true
  | _ :: _, [] => false
  | a :: as, b :: bs => a = b && leadsWith as bs

/-- JS `String.prototype.includes`: does `pat` occur anywhere in `s`? -/
def containsRun (pat : Str) : Str → Bool
  | [] => leadsWith pat []
  | c :: rest => leadsWith pat (c :: rest) || containsRun pat rest

/-- JS `split(sep)` for a single separator character: keeps empty pieces,
`"" ↦ [""]`. -/
def splitOnChar (sep : Char) : Str → List Str
  | [] => [[]]
  | c :: rest =>
    if c = sep then [] :: splitOnChar sep rest
    else
      match splitOnChar sep rest with
      | [] => [[c]]
      | s :: ss => (c :: s) :: ss

/-- Drop one trailing `'\r'`, if present (second half of splitting on the
regex `/\r?\n/`). -/
def stripCR (l : Str) : Str :=
  if l.getLast? = some '\r' then l.dropLast else l

/-- JS `text.split(/\r?\n/)`: split on `'\n'`, then strip one `'\r'` left
at the end of each piece by a `"\r\n"` sequence. -/
def splitLines (text : Str) : List Str :=
  (splitOnChar '\n' text).map stripCR

/-- Decimal rendering of a `Nat` (JS number-to-string for node ids). -/
def natToStr (n : Nat) : Str := (Nat.repr n).toList

/-! ### grammar.ts -/

/-- One statement-sized unit of input text (grammar.ts `LogicalSegment`). -/
structure LogicalSegment where
  physicalLine : Nat
  segmentIndex : Nat
  indent : Nat
  raw : Str
  code : Str
  comment : Str
deriving DecidableEq, Repr

/-- grammar.ts `Grammar`: the classified tokens of one segment. -/
structure Grammar where
  speckey : Option Str
  nodekey : Option Str
  linekey : List Str
  trimmedCode : Str
deriving DecidableEq, Repr

/-- grammar.ts `SPEC_KEYS`. -/
def SPEC_KEYS : List Str := [str "else", str "then"]

/-- grammar.ts `NODE_KEYS`. -/
def NODE_KEYS : List Str :=
  [str "dec", str "ii", str "end", str "do", str "fun", str "im", str "ex"]

/-- grammar.ts `INLINE_KEYS`. -/
def INLINE_KEYS : List Str := [str "if", str "of", str "loop", str "next"]

/-- grammar.ts `normalizeIvxToken`: strip one leading `'@'` sigil. -/
def normalizeIvxToken (t : Str) : Str :=
  match t with
  | '@' :: rest => rest
  | _ => t

/-- grammar.ts `splitDecisionLabels`: split on commas, trim each piece,
drop empties (`split(/\s*,\s*/)` followed by `trim`/`filter(Boolean)`
absorbs the whitespace around each comma exactly as splitting on the bare
comma and trimming does). -/
def splitDecisionLabels (text : Str) : List Str :=
  ((splitOnChar ',' text).map trimStr).filter (fun l => l ≠ [])

/-- Character scan of grammar.ts `splitCodeAndComment`, carrying the
in-single-quote / in-double-quote toggles; returns `(code, comment)`. -/
def splitCC : Str → Bool → Bool → Str × Str
  | [], _, _ => ([], [])
  | c :: rest, inSingle, inDouble =>
    if c = '\'' ∧ ¬inDouble then
      (c :: (splitCC rest (!inSingle) inDouble).1, (splitCC rest (!inSingle) inDouble).2)
    else if c = '"' ∧ ¬inSingle then
      (c :: (splitCC rest inSingle (!inDouble)).1, (splitCC rest inSingle (!inDouble)).2)
    else if c = '#' ∧ ¬inSingle ∧ ¬inDouble then
      ([], rest)
    else
      (c :: (splitCC rest inSingle inDouble).1, (splitCC rest inSingle inDouble).2)

/-- grammar.ts `splitCodeAndComment`. -/
def splitCodeAndComment (raw : Str) : Str × Str := splitCC raw false false

/-- Companion scan: `true` iff the string contains no `'#'` outside the
quote regions tracked from the given toggle state. -/
def unquotedHashFree : Str → Bool → Bool → Bool
  | [], _, _ => true
  | c :: rest, inSingle, inDouble =>
    if c = '\'' ∧ ¬inDouble then unquotedHashFree rest (!inSingle) inDouble
    else if c = '"' ∧ ¬inSingle then unquotedHashFree rest inSingle (!inDouble)
    else if c = '#' ∧ ¬inSingle ∧ ¬inDouble then false
    else unquotedHashFree rest inSingle inDouble

/-- Loop body of grammar.ts `computeIndent`: `(chars, spaceCount, indent)`. -/
def computeIndentGo : Str → Nat → Nat → Nat
  | [], _, indent => indent
  | c :: rest, spaceCount, indent =>
    if c = '\t' then computeIndentGo rest 0 (indent + 1)
    else if c = ' ' then
      if spaceCount + 1 = 4 then computeIndentGo rest 0 (indent + 1)
      else computeIndentGo rest (spaceCount + 1) indent
    else computeIndentGo rest spaceCount indent

/-- grammar.ts `computeIndent`. -/
def computeIndent (indentString : Str) : Nat := computeIndentGo indentString 0 0

/-- Body of the inner `forEach` of grammar.ts `collectSegments`: one
delimiter-separated piece of one physical line becomes at most one
segment. -/
def segOfPiece (lineIndex segIndex : Nat) (segText : Str) : Option LogicalSegment :=
  if segText.all jsWs then none
  else
    let indentString := segText.takeWhile (fun c => c = ' ' || c = '\t')
    let raw := segText.dropWhile (fun c => c = ' ' || c = '\t')
    let cc := splitCC raw false false
    some { physicalLine := lineIndex, segmentIndex := segIndex,
           indent := computeIndent indentString, raw := raw,
           code := cc.1, comment := cc.2 }

/-- grammar.ts `collectSegments`: split into lines, split each line on
every `':'`, keep the non-blank pieces. -/
def collectSegments (text : Str) : List LogicalSegment :=
  (splitLines text).enum.flatMap (fun p =>
    ((splitOnChar ':' p.2).enum.filterMap (fun q => segOfPiece p.1 q.1 q.2)))

/-- Whitespace tokenizer: `trimmed.split(/\s+/)` on an already-trimmed
string (maximal whitespace runs separate tokens, no empty tokens). -/
def wordsWs : Str → Str → List Str
  | [], acc => if acc = [] then [] else [acc.reverse]
  | c :: rest, acc =>
    if jsWs c then
      if acc = [] then wordsWs rest [] else acc.reverse :: wordsWs rest []
    else wordsWs rest (c :: acc)

/-- First consumption stage of grammar.ts `SegGram`: examine token 0,
normalising the collapsed-function marker; returns
`(speckey, nodekey, remaining tokens)` (a re-inserted `"!"` marker token
models the `tokens.splice(i, 0, '!')`). -/
def segGramStage1 (tokens : List Str) : Option Str × Option Str × List Str :=
  match tokens with
  | [] => (none, none, [])
  | t0 :: rest =>
    let norm0 := normalizeIvxToken t0
    let collapsedBang := norm0 = str "fun!" ∨ norm0 = str "fun!\x7b"
    let first := if collapsedBang then str "fun" else norm0
    if first ∈ SPEC_KEYS then (some first, none, rest)
    else if first ∈ NODE_KEYS then
      (none, some first, if collapsedBang then str "!" :: rest else rest)
    else (none, none, t0 :: rest)

/-- Second stage of `SegGram`: the next token is tested against
`SPEC_KEYS` and, if it matches, stored (overwriting any stage-1 value). -/
def segGramStage2 (speckey : Option Str) (rem : List Str) :
    Option Str × List Str :=
  match rem with
  | [] => (speckey, [])
  | t :: rest =>
    let norm := normalizeIvxToken t
    if norm ∈ SPEC_KEYS then (some norm, rest) else (speckey, t :: rest)

/-- Third stage of `SegGram`: the next token is tested against
`NODE_KEYS` and, if it matches, stored (overwriting any stage-1 value). -/
def segGramStage3 (nodekey : Option Str) (rem : List Str) :
    Option Str × List Str :=
  match rem with
  | [] => (nodekey, [])
  | t :: rest =>
    let norm := normalizeIvxToken t
    if norm ∈ NODE_KEYS then (some norm, rest) else (nodekey, t :: rest)

/-- Final stage of `SegGram`: remaining tokens are inline keys (collected
normalised, in order) or user text (kept verbatim). -/
def segGramRest : List Str → List Str × List Str
  | [] => ([], [])
  | t :: rest =>
    let r := segGramRest rest
    if normalizeIvxToken t ∈ INLINE_KEYS then (normalizeIvxToken t :: r.1, r.2)
    else (r.1, t :: r.2)

/-- grammar.ts `SegGram`: classify a segment's code into spec-key,
node-key, inline keys and trimmed user text; `none` for a non-statement
(blank code or a pure line-continuation run of backslashes). -/
def SegGram (seg : LogicalSegment) : Option Grammar :=
  let trimmed := trimStr seg.code
  if trimmed = [] ∨ trimmed.all (fun c => c = '\\') then none
  else
    let tokens := wordsWs trimmed []
    let s1 := segGramStage1 tokens
    let s2 := segGramStage2 s1.1 s1.2.2
    let s3 := segGramStage3 s1.2.1 s2.2
    let r := segGramRest s3.2
    some { speckey := s2.1, nodekey := s3.1, linekey := r.1,
           trimmedCode := trimStr (List.intercalate [' '] r.2) }

/-- grammar.ts `isElseOrThen` (argument can be `null`/`undefined`). -/
def isElseOrThen (s : Option Str) : Bool :=
  s = some (str "else") || s = some (str "then")

/-! ### graph.ts data model -/

/-- graph.ts `NodeKind`. -/
inductive NodeKind where
  | Start | End | Process | Decision | Connector | Input | Output
deriving DecidableEq, Repr

/-- graph.ts `Node`.  `meta` is the open-ended annotation string; `[]`
models both `undefined` and `''` (observationally identical in the
source). -/
structure Node where
  id : Nat
  kind : NodeKind
  line : Nat
  segmentIndex : Nat
  indent : Nat
  text : Str
  meta : Str
deriving DecidableEq, Repr

/-- graph.ts `Edge` (`fro` is the source's `from`, a Lean keyword);
`label := []` models an absent label, which the source identifies with
`''` via `?? ''`. -/
structure Edge where
  fro : Nat
  toN : Nat
  label : Str
deriving DecidableEq, Repr

/-- graph.ts `Graph` as returned by `parseivx`. -/
structure Graph where
  nodes : List Node
  edges : List Edge
  startNodeId : Option Nat
  endNodeId : Option Nat
deriving DecidableEq, Repr

/-- grammar.ts `DecisionContext`.  The source stores the header `Node` by
reference but only ever reads its immutable `id` and `indent`, so those
two projections are stored; `tails` is a JS `Map` kept as an
insertion-ordered association list. -/
structure DecisionContext where
  headerId : Nat
  headerIndent : Nat
  branches : List Nat
  tails : List (Nat × Nat)
  labels : Option (List Str)
  branchIndent : Option Nat
  hasExplicitSpec : Bool
deriving DecidableEq, Repr

/-- grammar.ts `FunContext` (header kept as its immutable id). -/
structure FunContext where
  headerId : Nat
  bodyNodeIds : List Nat
  lastBodyNodeId : Option Nat
deriving DecidableEq, Repr

/-- JS `Map.prototype.set`: replace in place if the key exists, else
append (insertion order preserved). -/
def tailsSet (m : List (Nat × Nat)) (k v : Nat) : List (Nat × Nat) :=
  if m.any (fun p => p.1 = k) then
    m.map (fun p => if p.1 = k then (k, v) else p)
  else m ++ [(k, v)]

/-- JS `Map.prototype.get`. -/
def tailsGet (m : List (Nat × Nat)) (k : Nat) : Option Nat :=
  (m.find? (fun p => p.1 = k)).map (·.2)

/-! ### valid.ts helpers -/

/-- valid.ts `isNonSentinel`. -/
def isNonSentinel (n : Node) : Bool :=
  match n.kind with
  | .Start => false
  | .End => false
  | _ => true

/-- valid.ts `inDecisionRange`. -/
def inDecisionRange (ctx : DecisionContext) (seg : LogicalSegment) : Bool :=
  ctx.branchIndent.getD ctx.headerIndent ≤ seg.indent

/-- valid.ts `hasEdge` (an omitted label argument is `''`, i.e. `[]`). -/
def hasEdge (edges : List Edge) (fro toN : Nat) (label : Str) : Bool :=
  edges.any (fun e => e.fro = fro ∧ e.toN = toN ∧ e.label = label)

/-- valid.ts `appendMeta`, as a pure function on the meta string. -/
def appendMetaStr (meta extra : Str) : Str :=
  (if meta ≠ [] then meta ++ [' '] else []) ++ extra

/-- valid.ts `findPrevSequentialCandidate`: nearest non-sentinel node
strictly before `startN` in creation order (`null` when `startN` is
missing or first). -/
def findPrevSequentialCandidate (nodes : List Node) (startN : Node) : Option Node :=
  match nodes.findIdx? (fun n => n.id = startN.id) with
  | none => none
  | some 0 => none
  | some idx => (nodes.take idx).reverse.find? isNonSentinel

/-- valid.ts `findLastNonSentinel`. -/
def findLastNonSentinel (nodes : List Node) : Option Node :=
  nodes.reverse.find? isNonSentinel

/-- valid.ts `isLoopOrNextNode` (`meta ?? ''` containment checks). -/
def isLoopOrNextNode (node : Option Node) : Bool :=
  match node with
  | none => false
  | some n =>
    containsRun (str "inline-loop") n.meta || containsRun (str "inline-next") n.meta

/-- valid.ts `findNextConnector`: the `Connector` on the smallest line
strictly after `node.line` (first in list order on a tie). -/
def findNextConnector (nodes : List Node) (node : Node) : Option Node :=
  nodes.foldl (fun best cand =>
    if cand.kind = NodeKind.Connector ∧ node.line < cand.line then
      match best with
      | none => some cand
      | some b => if cand.line < b.line then some cand else best
    else best) none

/-! ### valid.ts GraphBuilder -/

/-- The sole `Start` node, created by the `GraphBuilder` constructor. -/
def startNode0 : Node :=
  { id := 0, kind := .Start, line := 0, segmentIndex := 0, indent := 0,
    text := [], meta := str "implicit start" }

/-- valid.ts `GraphBuilder`: the node/edge arena and parse cursors.
Node references held by the source (`lastExecutableNode`,
`lastConnectorLikeNode`, `pendingNextNodes`) are stored as ids and
re-read from `nodes`, which matches the aliasing of the mutable `meta`
field. -/
structure GraphBuilder where
  nodes : List Node
  edges : List Edge
  startNode : Node
  endNodeId : Option Nat
  nextId : Nat
  lastExecutableNode : Option Nat
  lastConnectorLikeNode : Option Nat
  pendingNextNodes : List Nat
deriving DecidableEq, Repr

/-- The `GraphBuilder` constructor. -/
def initGB : GraphBuilder :=
  { nodes := [startNode0], edges := [], startNode := startNode0,
    endNodeId := none, nextId := 1, lastExecutableNode := none,
    lastConnectorLikeNode := none, pendingNextNodes := [] }

/-- Deduplicating edge insertion on the edge list (valid.ts
`GraphBuilder.pushEdge`). -/
def pushEdgeL (es : List Edge) (e : Edge) : List Edge :=
  if hasEdge es e.fro e.toN e.label then es else es ++ [e]

/-- valid.ts `GraphBuilder.pushEdge`. -/
def GraphBuilder.pushEdge (gb : GraphBuilder) (e : Edge) : GraphBuilder :=
  { gb with edges := pushEdgeL gb.edges e }

/-- Look a node up by id (dereferencing a stored node reference). -/
def findNode (gb : GraphBuilder) (i : Nat) : Option Node :=
  gb.nodes.find? (fun n => n.id = i)

/-- Apply an update to the `meta` of the node with the given id (the
source mutates the shared `Node` object in place). -/
def GraphBuilder.updateMeta (gb : GraphBuilder) (i : Nat) (f : Str → Str) :
    GraphBuilder :=
  { gb with nodes := gb.nodes.map (fun n => if n.id = i then { n with meta := f n.meta } else n) }

/-- valid.ts `GraphBuilder.makeNode`: allocate the next id, copy the
segment position, seed `meta` with the trimmed comment. -/
def GraphBuilder.makeNode (gb : GraphBuilder) (kind : NodeKind)
    (seg : LogicalSegment) (text : Str) : GraphBuilder × Node :=
  let node : Node :=
    { id := gb.nextId, kind := kind, line := seg.physicalLine,
      segmentIndex := seg.segmentIndex, indent := seg.indent,
      text := trimStr text, meta := trimStr seg.comment }
  ({ gb with nodes := gb.nodes ++ [node], nextId := gb.nextId + 1 }, node)

/-- valid.ts `GraphBuilder.finalizeNode`: wire a `loop`-tagged node back
to the most recent connector-like node, queue a `next`-tagged node for
deferred forward-jump resolution; tag `meta` accordingly. -/
def GraphBuilder.finalizeNode (gb : GraphBuilder) (nodeId : Nat)
    (gram : Grammar) : GraphBuilder :=
  let gb :=
    if str "loop" ∈ gram.linekey then
      match gb.lastConnectorLikeNode with
      | some target =>
        let gb := gb.pushEdge { fro := nodeId, toN := target, label := [] }
        gb.updateMeta nodeId (fun m => appendMetaStr m (str "inline-loop"))
      | none => gb
    else gb
  if str "next" ∈ gram.linekey then
    let gb := { gb with pendingNextNodes := gb.pendingNextNodes ++ [nodeId] }
    gb.updateMeta nodeId (fun m => appendMetaStr m (str "inline-next"))
  else gb

/-- Shared tail of valid.ts `wireSequential` once the predecessor
candidate is resolved. -/
def wireSequentialProceed (gb : GraphBuilder) (tn : Node) (updateLast : Bool)
    (fromB : Option Node) : GraphBuilder :=
  let fromC :=
    if isLoopOrNextNode fromB then
      match fromB with
      | some f => findPrevSequentialCandidate gb.nodes f
      | none => none
    else fromB
  let fromD :=
    match fromC with
    | some f =>
      if f.kind = NodeKind.Decision then findPrevSequentialCandidate gb.nodes f
      else some f
    | none => none
  if tn.kind = NodeKind.Connector then
    if updateLast ∧ ¬isLoopOrNextNode (some tn) then
      { gb with lastExecutableNode := some tn.id }
    else gb
  else
    let gb2 :=
      match fromD with
      | some f => gb.pushEdge { fro := f.id, toN := tn.id, label := [] }
      | none => gb
    if updateLast ∧ ¬isLoopOrNextNode (some tn) then
      { gb2 with lastExecutableNode := some tn.id }
    else gb2

/-- valid.ts `GraphBuilder.wireSequential`: default sequential wiring of
the cursor (or `Start`) into `toId`. -/
def GraphBuilder.wireSequential (gb : GraphBuilder) (toId : Nat)
    (updateLast : Bool) : GraphBuilder :=
  match findNode gb toId with
  | none => gb
  | some tn =>
    match gb.lastExecutableNode with
    | some i => wireSequentialProceed gb tn updateLast (findNode gb i)
    | none =>
      if gb.edges.any (fun e => e.fro = gb.startNode.id) then
        match findLastNonSentinel gb.nodes with
        | none => gb
        | some n => wireSequentialProceed gb tn updateLast (some n)
      else wireSequentialProceed gb tn updateLast (some gb.startNode)

/-- valid.ts `GraphBuilder.createImplicitEnd`: append the synthesized
terminal `End` node and record it as the graph's end node. -/
def GraphBuilder.createImplicitEnd (gb : GraphBuilder) (line segmentIndex : Nat)
    (meta : Str) : GraphBuilder × Node :=
  let node : Node :=
    { id := gb.nextId, kind := .End, line := line,
      segmentIndex := segmentIndex, indent := 0, text := [], meta := meta }
  ({ gb with nodes := gb.nodes ++ [node], nextId := gb.nextId + 1,
             endNodeId := some node.id }, node)

/-! ### valid.ts computeConnectorFanin -/

/-- Backward scan for the exclusive lower bound of the fan-in window: the
line of the nearest earlier `Decision`/`Connector` at the same indent,
else `0`. -/
def boundaryStartLine (nodes : List Node) (k line : Nat) : Nat :=
  match (List.range line).reverse.find? (fun i =>
      nodes.any (fun n =>
        n.line = i ∧ n.indent = k ∧
          (n.kind = NodeKind.Decision ∨ n.kind = NodeKind.Connector))) with
  | some i => i
  | none => 0

/-- The fan-in candidate window of a connector: non-sentinel nodes at the
connector's indent with line in `(startLine, connector.line]`, the
connector itself excluded. -/
def faninWindowOf (nodes : List Node) (c : Node) : List Node :=
  let sl := boundaryStartLine nodes c.indent c.line
  nodes.filter (fun n =>
    decide (n.id ≠ c.id) && isNonSentinel n &&
      decide (n.indent = c.indent ∧ sl < n.line ∧ n.line ≤ c.line))

/-- Successor map of the edge subgraph induced on the candidate ids
(`succsInWindow` in valid.ts). -/
def succsInWindow (edges : List Edge) (ids : List Nat) (i : Nat) : List Nat :=
  (edges.filter (fun e => e.fro = i ∧ e.fro ∈ ids ∧ e.toN ∈ ids)).map (·.toN)

/-- One round of reachability expansion. -/
def reachStep (succs : Nat → List Nat) (s : List Nat) : List Nat :=
  (s ++ s.flatMap succs).dedup

/-- Iterated expansion: after `fuel` rounds from `s`. -/
def reachFrom (succs : Nat → List Nat) : Nat → List Nat → List Nat
  | 0, s => s
  | fuel + 1, s => reachFrom succs fuel (reachStep succs s)

/-- valid.ts `canReachFeeder`: can `startId` reach, via the induced
successor map, some *other* id in `feederIds`?  The source's visited-set
DFS is rendered as a bounded closure computation: with `fuel` at least
the number of candidate ids plus one, the closure of `[startId]` is
exactly the DFS's visited set. -/
def canReachFeeder (succs : Nat → List Nat) (fuel : Nat)
    (feederIds : List Nat) (startId : Nat) : Bool :=
  (reachFrom succs fuel [startId]).any (fun y => y ≠ startId ∧ y ∈ feederIds)

/-- The feeder-filtering loop of `computeConnectorFanin`: candidates are
examined in creation order and dropped from the (shrinking) feeder set
when they can still reach another remaining feeder. -/
def faninFeederIds (edges : List Edge) (window : List Node) : List Nat :=
  let ids := window.map (·.id)
  let succs := succsInWindow edges ids
  let fuel := ids.length + 1
  window.foldl (fun fs n =>
    if n.id ∈ fs ∧ canReachFeeder succs fuel fs n.id then fs.erase n.id else fs)
    ids

/-- The edge-adding loop of `computeConnectorFanin`: every untagged
remaining feeder gets a deduplicated edge into the connector. -/
def faninEdgesFold (gb : GraphBuilder) (cid : Nat) (window : List Node)
    (feeders : List Nat) : GraphBuilder :=
  window.foldl (fun g n =>
    if isLoopOrNextNode (some n) ∨ n.id ∉ feeders then g
    else g.pushEdge { fro := n.id, toN := cid, label := [] }) gb

/-- The trailing step of `computeConnectorFanin`: if the connector still
has no outgoing edge, wire it to the next non-sentinel node forward at
its indentation. -/
def connectorFallbackOut (gb : GraphBuilder) (c : Node) : GraphBuilder :=
  if gb.edges.any (fun e => e.fro = c.id) then gb
  else
    match gb.nodes.find? (fun n =>
        decide (n.id ≠ c.id) && isNonSentinel n &&
          decide (n.indent = c.indent ∧ c.line < n.line)) with
    | some nxt => gb.pushEdge { fro := c.id, toN := nxt.id, label := [] }
    | none => gb

/-- valid.ts `GraphBuilder.computeConnectorFanin`. -/
def GraphBuilder.computeConnectorFanin (gb : GraphBuilder) (c : Node) :
    GraphBuilder :=
  connectorFallbackOut
    (faninEdgesFold gb c.id (faninWindowOf gb.nodes c)
      (faninFeederIds gb.edges (faninWindowOf gb.nodes c))) c

/-! ### extension.ts validator -/

/-- One row of extension.ts `NODE_ARITY_RULES` (`none` models
`Infinity`, i.e. unbounded). -/
structure ArityRule where
  minIn : Nat
  maxIn : Option Nat
  minOut : Nat
  maxOut : Option Nat
deriving DecidableEq, Repr

/-- extension.ts `NODE_ARITY_RULES`. -/
def NODE_ARITY_RULES : NodeKind → ArityRule
  | .Start => { minIn := 0, maxIn := some 0, minOut := 1, maxOut := some 1 }
  | .End => { minIn := 1, maxIn := some 1, minOut := 0, maxOut := some 0 }
  | .Process => { minIn := 1, maxIn := some 1, minOut := 1, maxOut := some 1 }
  | .Decision => { minIn := 1, maxIn := none, minOut := 2, maxOut := none }
  | .Connector => { minIn := 1, maxIn := none, minOut := 1, maxOut := some 1 }
  | .Input => { minIn := 1, maxIn := some 1, minOut := 1, maxOut := some 1 }
  | .Output => { minIn := 1, maxIn := some 1, minOut := 1, maxOut := some 1 }

/-- The TS string-enum rendering of a `NodeKind`. -/
def kindStr : NodeKind → Str
  | .Start => str "Start"
  | .End => str "End"
  | .Process => str "Process"
  | .Decision => str "Decision"
  | .Connector => str "Connector"
  | .Input => str "Input"
  | .Output => str "Output"

/-- JS `padStart(3)` with the default space pad character. -/
def padStart3 (s : Str) : Str :=
  if s.length < 3 then List.replicate (3 - s.length) ' ' ++ s else s

/-- The `nodeInfo` prefix of every validator message. -/
def nodeInfoStr (n : Node) : Str :=
  str "N" ++ padStart3 (natToStr n.id) ++ str " [" ++ kindStr n.kind ++
    str "] L" ++ natToStr (n.line + 1)

/-- In-degree of a node id, computed from the edge list. -/
def inDeg (edges : List Edge) (i : Nat) : Nat :=
  edges.countP (fun e => e.toN = i)

/-- Out-degree of a node id, computed from the edge list. -/
def outDeg (edges : List Edge) (i : Nat) : Nat :=
  edges.countP (fun e => e.fro = i)

/-- The four bound checks of `validNodeIO` for one node: one message per
violated bound, inputs before outputs. -/
def arityMsgs (rules : ArityRule) (nodeInfo : Str) (inCount outCount : Nat) :
    List Str :=
  (if inCount < rules.minIn then
    [nodeInfo ++ str " has " ++ natToStr inCount ++ str " inputs (expected ≥" ++
      natToStr rules.minIn ++ str ")"] else []) ++
  (match rules.maxIn with
   | some m =>
     if m < inCount then
       [nodeInfo ++ str " has " ++ natToStr inCount ++ str " inputs (expected ≤" ++
         natToStr m ++ str ")"] else []
   | none => []) ++
  (if outCount < rules.minOut then
    [nodeInfo ++ str " has " ++ natToStr outCount ++ str " outputs (expected ≥" ++
      natToStr rules.minOut ++ str ")"] else []) ++
  (match rules.maxOut with
   | some m =>
     if m < outCount then
       [nodeInfo ++ str " has " ++ natToStr outCount ++ str " outputs (expected ≤" ++
         natToStr m ++ str ")"] else []
   | none => [])

/-- extension.ts `validNodeIO`: the structural validator.  Pure; walks
the nodes in creation order, skips function-body members, and emits the
bound-violation messages of each remaining node. -/
def validNodeIO (nodes : List Node) (edges : List Edge) : List Str :=
  nodes.flatMap (fun n =>
    if containsRun (str "fun-body-of=") n.meta then []
    else arityMsgs (NODE_ARITY_RULES n.kind) (nodeInfoStr n)
      (inDeg edges n.id) (outDeg edges n.id))

/-! ### Parser driver (parseivx) -/

/-- The local state of one `parseivx` invocation around the builder. -/
structure PState where
  gb : GraphBuilder
  lastNode : Option Nat
  currentBranchIndex : Option Nat
  decisionStack : List DecisionContext
  funStack : List FunContext
deriving DecidableEq, Repr

/-- The state at the top of `parseivx` (`lastNode` starts at the start
node). -/
def initPState : PState :=
  { gb := initGB, lastNode := some 0, currentBranchIndex := none,
    decisionStack := [], funStack := [] }

/-- parseivx `registerInFun`: chain a new node into the open function
context's body. -/
def registerInFun (st : PState) (nodeId : Nat) : PState :=
  match st.funStack with
  | [] => st
  | top :: rest =>
    let fromId := top.lastBodyNodeId.getD top.headerId
    let fromNode := findNode st.gb fromId
    let gb :=
      match fromNode with
      | some _ =>
        if isLoopOrNextNode fromNode then st.gb
        else st.gb.pushEdge { fro := fromId, toN := nodeId, label := [] }
      | none => st.gb
    let gb := gb.updateMeta nodeId (fun m =>
      appendMetaStr m (str "fun-body-of=" ++ natToStr top.headerId))
    let top2 : FunContext :=
      { top with bodyNodeIds := top.bodyNodeIds ++ [nodeId],
                 lastBodyNodeId := some nodeId }
    { st with gb := gb, funStack := top2 :: rest }

/-- parseivx `createExecutableNode`: make the node, finalize its inline
keys, update `lastNode`, optionally register it in the open function
context; returns the new node's id. -/
def createExecutableNode (st : PState) (kind : NodeKind)
    (seg : LogicalSegment) (text : Str) (gram : Grammar)
    (skipFunRegister : Bool) : PState × Nat :=
  let p := st.gb.makeNode kind seg text
  let gb2 := p.1.finalizeNode p.2.id gram
  let st := { st with gb := gb2, lastNode := some p.2.id }
  (if skipFunRegister then st else registerInFun st p.2.id, p.2.id)

/-- Loop of parseivx `popObsoleteDecisions` over the decision stack;
returns the updated builder, branch index and stack. -/
def popObsoleteGo (gb : GraphBuilder) (bi : Option Nat)
    (seg : LogicalSegment) (hasSpec : Bool) :
    List DecisionContext → GraphBuilder × Option Nat × List DecisionContext
  | [] => (gb, bi, [])
  | top :: rest =>
    let cutoff := top.branchIndent.getD top.headerIndent
    if seg.indent < cutoff then popObsoleteGo gb none seg hasSpec rest
    else if seg.indent = cutoff ∧ ¬hasSpec ∧ top.hasExplicitSpec then
      let tails := top.tails.map (·.2)
      let gb :=
        { gb with lastExecutableNode := some ((tails.getLast?).getD top.headerId) }
      popObsoleteGo gb none seg hasSpec rest
    else (gb, bi, top :: rest)

/-- parseivx `popObsoleteDecisions`. -/
def popObsoleteDecisions (st : PState) (seg : LogicalSegment)
    (speckey : Option Str) : PState :=
  let r := popObsoleteGo st.gb st.currentBranchIndex seg (isElseOrThen speckey)
    st.decisionStack
  { st with gb := r.1, currentBranchIndex := r.2.1, decisionStack := r.2.2 }

/-- parseivx `attachElseNodeToDecision`: open a new branch of the
decision; returns the updated builder and context plus
`(branchIndex, lastExecutableNode)` of the source's `AttachResult`. -/
def attachElseNodeToDecision (gb : GraphBuilder) (ctx : DecisionContext)
    (nodeId : Nat) : GraphBuilder × DecisionContext × Option Nat × Option Nat :=
  let branchIndex := ctx.branches.length
  let label :=
    match ctx.labels with
    | some ls => (ls.get? branchIndex).getD []
    | none => []
  let gb := gb.pushEdge { fro := ctx.headerId, toN := nodeId, label := label }
  let ctx :=
    { ctx with branches := ctx.branches ++ [nodeId],
               tails := tailsSet ctx.tails branchIndex nodeId,
               hasExplicitSpec := true }
  (gb, ctx, some branchIndex, some nodeId)

/-- parseivx `attachThenNodeToDecision`: continue the current (or last)
branch, falling back to default sequential wiring when no branch tail is
resolvable. -/
def attachThenNodeToDecision (gb : GraphBuilder) (ctx : DecisionContext)
    (nodeId : Nat) (currentBranchIndex : Option Nat) :
    GraphBuilder × DecisionContext × Option Nat × Option Nat :=
  let bi :=
    match currentBranchIndex with
    | some i => some i
    | none =>
      if ctx.branches.length > 0 then some (ctx.branches.length - 1) else none
  match bi with
  | some i =>
    (match tailsGet ctx.tails i with
     | some tailId =>
       let gb := gb.pushEdge { fro := tailId, toN := nodeId, label := [] }
       let ctx :=
         { ctx with tails := tailsSet ctx.tails i nodeId,
                    hasExplicitSpec := true }
       (gb, ctx, some i, some nodeId)
     | none =>
       let gb := gb.wireSequential nodeId true
       (gb, ctx, none, gb.lastExecutableNode))
  | none =>
    let gb := gb.wireSequential nodeId true
    (gb, ctx, none, gb.lastExecutableNode)

/-- parseivx `wireIntoDecisionIfAny`: attach the node into the innermost
decision context if a branch marker applies; returns whether it did.
On the `then` path the source also writes the attach result's cursor
back into the builder; on the `else` path it does not. -/
def wireIntoDecisionIfAny (st : PState) (nodeId : Nat)
    (seg : LogicalSegment) (speckey : Option Str) : PState × Bool :=
  match st.decisionStack with
  | [] => (st, false)
  | ctx :: rest =>
    if ¬isElseOrThen speckey ∨ ¬inDecisionRange ctx seg then (st, false)
    else if speckey = some (str "else") then
      let r := attachElseNodeToDecision st.gb ctx nodeId
      ({ st with gb := r.1, decisionStack := r.2.1 :: rest,
                 currentBranchIndex := r.2.2.1 }, true)
    else
      let r := attachThenNodeToDecision st.gb ctx nodeId st.currentBranchIndex
      ({ st with gb := { r.1 with lastExecutableNode := r.2.2.2 },
                 decisionStack := r.2.1 :: rest,
                 currentBranchIndex := r.2.2.1 }, true)

/-- parseivx `handleExecutableNode`: the generic create + decision-attach
+ pop + default-sequential-wire path. -/
def handleExecutableNode (st : PState) (kind : NodeKind)
    (seg : LogicalSegment) (gram : Grammar) (trimmedCode : Str)
    (speckey : Option Str) : PState :=
  let p := createExecutableNode st kind seg trimmedCode gram false
  let w := wireIntoDecisionIfAny p.1 p.2 seg speckey
  if w.2 then w.1
  else
    let st := popObsoleteDecisions w.1 seg speckey
    if st.funStack.isEmpty then
      { st with gb := st.gb.wireSequential p.2 true }
    else st

/-- parseivx `handleBareElseThen`: a segment carrying only a branch
marker. -/
def handleBareElseThen (st : PState) (seg : LogicalSegment)
    (gram : Grammar) : PState :=
  let st := popObsoleteDecisions st seg gram.speckey
  match st.decisionStack with
  | [] => handleExecutableNode st .Process seg gram gram.trimmedCode gram.speckey
  | ctx :: rest =>
    let pinned :=
      if gram.speckey = some (str "else") ∧ ctx.branchIndent = none then
        { ctx with branchIndent := some seg.indent }
      else ctx
    let st := { st with decisionStack := pinned :: rest }
    if seg.indent < pinned.headerIndent then
      handleExecutableNode st .Process seg gram gram.trimmedCode gram.speckey
    else
      let p := createExecutableNode st .Process seg gram.trimmedCode gram false
      let w := wireIntoDecisionIfAny p.1 p.2 seg gram.speckey
      if w.2 then w.1
      else if w.1.funStack.isEmpty then
        { w.1 with gb := w.1.gb.wireSequential p.2 true }
      else w.1

/-- parseivx `closeFun`: close the innermost function context on a
segment whose code ends in a closing brace; synthesize the footer node
when the context collected a body. -/
def closeFun (st : PState) (seg : LogicalSegment) : PState × Bool :=
  match st.funStack with
  | [] => (st, false)
  | funCtx :: rest =>
    let trimmedEnd := trimEndStr seg.code
    if trimmedEnd.getLast? ≠ some '\x7d' then (st, false)
    else
      let st := { st with funStack := rest }
      let st :=
        if funCtx.bodyNodeIds.length > 0 then
          let gb := st.gb.updateMeta funCtx.headerId (fun m =>
            appendMetaStr m (str "fun-body=[" ++
              List.intercalate (str ",") (funCtx.bodyNodeIds.map natToStr) ++
              str "]"))
          let st := { st with gb := gb }
          let footerText := trimStr trimmedEnd
          let footerGram : Grammar :=
            { speckey := none, nodekey := none, linekey := [],
              trimmedCode := footerText }
          let p := createExecutableNode st .Process seg footerText footerGram true
          let st := p.1
          let gb := st.gb.updateMeta p.2 (fun m =>
            appendMetaStr m (str "fun-footer-of=" ++ natToStr funCtx.headerId))
          -- the source's non-null assertion `funCtx.lastBodyNodeId!`
          let lastBodyId := funCtx.lastBodyNodeId.getD 0
          let gb := gb.pushEdge { fro := lastBodyId, toN := p.2, label := [] }
          { st with gb := { gb with lastExecutableNode := some p.2 } }
        else st
      ({ st with currentBranchIndex := none }, true)

/-- parseivx function-open handler (`nodekey === 'fun'`). -/
def handleFunOpen (st : PState) (seg : LogicalSegment) (gram : Grammar) :
    PState :=
  let afterFun := trimStr gram.trimmedCode
  let isCollapsed := afterFun.head? = some '!'
  let afterFun2 :=
    if isCollapsed then (afterFun.drop 1).dropWhile jsWs else afterFun
  let funName := trimStr afterFun2
  let headerText := (if isCollapsed then str "fun! " else str "fun ") ++ funName
  let gram2 : Grammar :=
    { speckey := gram.speckey, nodekey := none, linekey := gram.linekey,
      trimmedCode := headerText }
  let p := createExecutableNode st .Process seg headerText gram2 true
  let st := p.1
  let st := { st with gb := st.gb.updateMeta p.2 (fun m =>
    appendMetaStr m (str "fun-block " ++
      (if isCollapsed then str "collapsed" else str "expanded"))) }
  let st := { st with gb := st.gb.wireSequential p.2 true }
  { st with
    funStack := { headerId := p.2, bodyNodeIds := [], lastBodyNodeId := none }
      :: st.funStack,
    currentBranchIndex := none }

/-- parseivx end-node handler (`nodekey === 'end'`). -/
def handleEnd (st : PState) (seg : LogicalSegment) (gram : Grammar) : PState :=
  let ctxTop := st.decisionStack.head?
  let p := createExecutableNode st .End seg gram.trimmedCode gram false
  let st := { p.1 with gb := p.1.gb.updateMeta p.2 (fun m =>
    appendMetaStr m (str "explicit end")) }
  let inRange :=
    match ctxTop with
    | some ctx => inDecisionRange ctx seg
    | none => false
  if inRange then
    let st :=
      if isElseOrThen gram.speckey then (wireIntoDecisionIfAny st p.2 seg gram.speckey).1
      else { st with currentBranchIndex := none }
    { st with gb := { st.gb with lastExecutableNode := none } }
  else
    let prev :=
      match findNode st.gb p.2 with
      | some en => (findPrevSequentialCandidate st.gb.nodes en).map (·.id)
      | none => none
    { st with currentBranchIndex := none,
              gb := { st.gb with lastExecutableNode := prev } }

/-- parseivx decision handler (`nodekey === 'dec'`). -/
def handleDec (st : PState) (seg : LogicalSegment) (gram : Grammar) : PState :=
  let st := popObsoleteDecisions st seg gram.speckey
  let st := { st with currentBranchIndex := none }
  let headerText := gram.trimmedCode
  let labels := splitDecisionLabels headerText
  let p := createExecutableNode st .Decision seg headerText gram false
  let st := p.1
  let st :=
    match st.decisionStack with
    | ctx :: rest =>
      if inDecisionRange ctx seg ∧ isElseOrThen gram.speckey then
        if gram.speckey = some (str "else") then
          let r := attachElseNodeToDecision st.gb ctx p.2
          { st with gb := r.1, decisionStack := r.2.1 :: rest,
                    currentBranchIndex := r.2.2.1 }
        else
          let r := attachThenNodeToDecision st.gb ctx p.2 st.currentBranchIndex
          { st with gb := { r.1 with lastExecutableNode := r.2.2.2 },
                    decisionStack := r.2.1 :: rest,
                    currentBranchIndex := r.2.2.1 }
      else if st.funStack.isEmpty then
        { st with gb := st.gb.wireSequential p.2 true }
      else st
    | [] =>
      if st.funStack.isEmpty then
        { st with gb := st.gb.wireSequential p.2 true }
      else st
  let st :=
    if labels.length > 1 then
      { st with gb := st.gb.updateMeta p.2 (fun _ =>
        str "labels: [" ++ List.intercalate (str ", ") labels ++ str "]") }
    else st
  let newCtx : DecisionContext :=
    { headerId := p.2, headerIndent := seg.indent, branches := [], tails := [],
      labels := if labels.length > 1 then some labels else none,
      branchIndent := none, hasExplicitSpec := false }
  { st with decisionStack := newCtx :: st.decisionStack }

/-- parseivx connector handler (`nodekey === 'ii'`). -/
def handleConnector (st : PState) (seg : LogicalSegment) (gram : Grammar) :
    PState :=
  let text := if gram.trimmedCode = [] then str "ii" else gram.trimmedCode
  let p := createExecutableNode st .Connector seg text gram false
  let gbc :=
    { p.1.gb with lastConnectorLikeNode := some p.2,
                  lastExecutableNode := some p.2 }
  let st := { p.1 with gb := gbc }
  let st := popObsoleteDecisions st seg gram.speckey
  let st :=
    match findNode st.gb p.2 with
    | some cNode => { st with gb := st.gb.computeConnectorFanin cNode }
    | none => st
  let st := { st with gb := { st.gb with lastExecutableNode := some p.2 } }
  if st.funStack.isEmpty then
    { st with gb := st.gb.wireSequential p.2 true }
  else st

/-- One iteration of the main `parseivx` loop over segments. -/
def processSeg (st : PState) (seg : LogicalSegment) : PState :=
  if trimStr seg.code = [] ∧ trimStr seg.comment ≠ [] then
    match st.lastNode with
    | some i =>
      { st with gb := st.gb.updateMeta i (fun m =>
          appendMetaStr m (trimStr seg.comment)) }
    | none => st
  else
    let cf := closeFun st seg
    if cf.2 then cf.1
    else
      match SegGram seg with
      | none => cf.1
      | some gram =>
        if gram.nodekey = some (str "fun") then handleFunOpen cf.1 seg gram
        else if isElseOrThen gram.speckey ∧ gram.nodekey = none then
          handleBareElseThen cf.1 seg gram
        else if gram.nodekey = some (str "end") then handleEnd cf.1 seg gram
        else if gram.nodekey = some (str "im") then
          handleExecutableNode cf.1 .Input seg gram gram.trimmedCode gram.speckey
        else if gram.nodekey = some (str "ex") then
          handleExecutableNode cf.1 .Output seg gram gram.trimmedCode gram.speckey
        else if gram.nodekey = some (str "dec") then handleDec cf.1 seg gram
        else if gram.nodekey = some (str "ii") then handleConnector cf.1 seg gram
        else handleExecutableNode cf.1 .Process seg gram gram.trimmedCode gram.speckey

/-- The deferred forward-jump resolution at the end of `parseivx`. -/
def resolvePendingNext (gb : GraphBuilder) : GraphBuilder :=
  gb.pendingNextNodes.foldl (fun g nid =>
    match findNode g nid with
    | none => g
    | some node =>
      match findNextConnector g.nodes node with
      | some conn =>
        if g.edges.any (fun e => e.fro = nid ∧ e.toN = conn.id) then g
        else g.pushEdge { fro := nid, toN := conn.id, label := [] }
      | none => g) gb

/-- parseivx: the single-pass parsing driver plus finalization. -/
def parseivx (text : Str) : Graph :=
  let segments := collectSegments text
  let st := segments.foldl processSeg initPState
  let gb := resolvePendingNext st.gb
  let nonStartEnd := gb.nodes.filter isNonSentinel
  let gb :=
    if ¬(gb.edges.any (fun e => e.fro = gb.startNode.id)) ∧ nonStartEnd ≠ [] then
      match nonStartEnd.head? with
      | some f => gb.pushEdge { fro := gb.startNode.id, toN := f.id, label := [] }
      | none => gb
    else gb
  let gb :=
    match nonStartEnd with
    | f :: s :: _ =>
      if s.kind = NodeKind.Connector ∧
          ¬(gb.edges.any (fun e => e.fro = f.id ∧ e.toN = s.id)) then
        gb.pushEdge { fro := f.id, toN := s.id, label := [] }
      else gb
    | _ => gb
  let executableNodes := gb.nodes.filter (fun n => n.kind ≠ NodeKind.End)
  let ftNode :=
    match executableNodes.getLast? with
    | some n => n
    | none => gb.startNode
  let endLabel :=
    match executableNodes.getLast? with
    | some _ => str "implicit end"
    | none => str "implicit end (empty doc)"
  let q := gb.createImplicitEnd ftNode.line ftNode.segmentIndex endLabel
  let gb := q.1.pushEdge { fro := ftNode.id, toN := q.2.id, label := [] }
  { nodes := gb.nodes, edges := gb.edges,
    startNodeId := some gb.startNode.id, endNodeId := some q.2.id }

/-! ## Claim C7: the empty document -/

/-- C7: Parsing an empty document yields exactly two nodes — the `Start`
node and the synthesized `End` node — and exactly one edge
`Start → End`, and the validator reports zero errors on the resulting
graph. -/
theorem c7_empty_document :
    (parseivx []).nodes =
      [startNode0,
       { id := 1, kind := .End, line := 0, segmentIndex := 0, indent := 0,
         text := [], meta := str "implicit end" }] ∧
    (parseivx []).edges = [{ fro := 0, toN := 1, label := [] }] ∧
    validNodeIO (parseivx []).nodes (parseivx []).edges = [] := by
  decide

/-! ## Claim C9: splitCodeAndComment loses no characters -/

/-- Prepend a character on both sides of a `code ++ '#' :: comment`
split. -/
theorem cons_split_shift {c : Char} {rest a b : Str}
    (h : rest = a ++ '#' :: b) : c :: rest = (c :: a) ++ '#' :: b := by
  rw [List.cons_append]; exact congrArg (List.cons c) h

/-- Core induction for C9: the scan either consumes everything into
`code` with an empty comment, or splits the input as
`code ++ '#' :: comment`; and in both cases the produced code contains no
unquoted `'#'` from the respective scan state. -/
theorem splitCC_lossless (raw : Str) : ∀ s d : Bool,
    (((splitCC raw s d).2 = [] ∧ (splitCC raw s d).1 = raw) ∨
      raw = (splitCC raw s d).1 ++ '#' :: (splitCC raw s d).2) ∧
    unquotedHashFree (splitCC raw s d).1 s d = true := by
  induction raw with
  | nil => intro s d; simp [splitCC, unquotedHashFree]
  | cons c rest ih =>
    intro s d
    by_cases h1 : c = '\'' ∧ ¬d
    · obtain ⟨hsplit, hfree⟩ := ih (!s) d
      simp only [splitCC, if_pos h1]
      refine ⟨?_, ?_⟩
      · rcases hsplit with ⟨h2, h3⟩ | h2
        · exact Or.inl ⟨h2, by rw [h3]⟩
        · exact Or.inr (cons_split_shift h2)
      · simp only [unquotedHashFree, if_pos h1]; exact hfree
    · by_cases h2 : c = '"' ∧ ¬s
      · obtain ⟨hsplit, hfree⟩ := ih s (!d)
        simp only [splitCC, if_neg h1, if_pos h2]
        refine ⟨?_, ?_⟩
        · rcases hsplit with ⟨h3, h4⟩ | h3
          · exact Or.inl ⟨h3, by rw [h4]⟩
          · exact Or.inr (cons_split_shift h3)
        · simp only [unquotedHashFree, if_neg h1, if_pos h2]; exact hfree
      · by_cases h3 : c = '#' ∧ ¬s ∧ ¬d
        · simp only [splitCC, if_neg h1, if_neg h2, if_pos h3]
          exact ⟨Or.inr (by rw [h3.1]; rfl), by simp [unquotedHashFree]⟩
        · obtain ⟨hsplit, hfree⟩ := ih s d
          simp only [splitCC, if_neg h1, if_neg h2, if_neg h3]
          refine ⟨?_, ?_⟩
          · rcases hsplit with ⟨h4, h5⟩ | h4
            · exact Or.inl ⟨h4, by rw [h5]⟩
            · exact Or.inr (cons_split_shift h4)
          · simp only [unquotedHashFree, if_neg h1, if_neg h2, if_neg h3]
            exact hfree

/-- C9: For every input string, `splitCodeAndComment` loses no
characters: either the returned comment is empty and the returned code
equals the input, or the input equals `code ++ '#' ++ comment`, the
dropped `'#'` being the first one outside single- and double-quoted
regions (the returned code contains no unquoted `'#'`). -/
theorem c9_splitCodeAndComment_lossless (raw : Str) :
    (((splitCodeAndComment raw).2 = [] ∧ (splitCodeAndComment raw).1 = raw) ∨
      raw = (splitCodeAndComment raw).1 ++ '#' :: (splitCodeAndComment raw).2) ∧
    unquotedHashFree (splitCodeAndComment raw).1 false false = true :=
  splitCC_lossless raw false false

/-- Witness: C9 applied at the concrete input `"a'#b'#c#d"` — the split
point is the `'#'` after the quoted region. -/
theorem c9_witness :
    ((((splitCodeAndComment (str "a'#b'#c#d")).2 = [] ∧
        (splitCodeAndComment (str "a'#b'#c#d")).1 = str "a'#b'#c#d") ∨
      str "a'#b'#c#d" = (splitCodeAndComment (str "a'#b'#c#d")).1 ++
        '#' :: (splitCodeAndComment (str "a'#b'#c#d")).2) ∧
     unquotedHashFree (splitCodeAndComment (str "a'#b'#c#d")).1 false false = true) ∧
    (splitCodeAndComment (str "a'#b'#c#d")).1 = str "a'#b'" :=
  ⟨c9_splitCodeAndComment_lossless (str "a'#b'#c#d"), by decide⟩

/-! ## Claim C10: collectSegments splits unconditionally -/

/-- A list without the separator splits into itself. -/
theorem splitOnChar_eq_single {sep : Char} {l : Str} (h : sep ∉ l) :
    splitOnChar sep l = [l] := by
  induction l with
  | nil => rfl
  | cons c rest ih =>
    have hc : ¬c = sep := fun he => h (he ▸ List.mem_cons_self c rest)
    have hr : sep ∉ rest := fun hm => h (List.mem_cons_of_mem c hm)
    simp only [splitOnChar, if_neg hc, ih hr]

/-- Splitting at the first separator occurrence: the part before it is
separator-free. -/
theorem splitOnChar_sep_append {sep : Char} {l1 : Str} (l2 : Str)
    (h : sep ∉ l1) :
    splitOnChar sep (l1 ++ sep :: l2) = l1 :: splitOnChar sep l2 := by
  induction l1 with
  | nil => simp [splitOnChar]
  | cons c rest ih =>
    have hc : ¬c = sep := fun he => h (he ▸ List.mem_cons_self c rest)
    have hr : sep ∉ rest := fun hm => h (List.mem_cons_of_mem c hm)
    simp only [List.cons_append, splitOnChar, if_neg hc, List.append_eq, ih hr]

/-- A character not in the list is not its last element. -/
theorem getLast?_ne_of_not_mem {a : Char} {l : Str} (h : a ∉ l) :
    l.getLast? ≠ some a := by
  intro hl
  obtain ⟨hne, hx⟩ := List.mem_getLast?_eq_getLast (Option.mem_def.mpr hl)
  exact h (hx ▸ List.getLast_mem hne)

/-- `stripCR` is the identity on a list not ending in `'\r'`. -/
theorem stripCR_eq_self {l : Str} (h : l.getLast? ≠ some '\r') :
    stripCR l = l := by
  simp only [stripCR, if_neg h]

/-- C10: `collectSegments` splits every physical line at every `':'`
unconditionally, before any quote or comment analysis: for any two
colon-free pieces — each free to contain quotes and comment introducers,
balanced or not — joining them with `':'` yields the two segments the
pieces produce independently (same line, consecutive sub-statement
indices), and joining them with `'\n'` likewise (consecutive lines, both
at sub-statement index 0); each piece's code/comment split is computed
from a fresh quote state. -/
theorem c10_collectSegments_splits_unconditionally (l1 l2 : Str)
    (h1n : '\n' ∉ l1) (h2n : '\n' ∉ l2) (h1r : '\r' ∉ l1) (h2r : '\r' ∉ l2)
    (h1c : ':' ∉ l1) (h2c : ':' ∉ l2) :
    collectSegments (l1 ++ ':' :: l2) =
      (segOfPiece 0 0 l1).toList ++ (segOfPiece 0 1 l2).toList ∧
    collectSegments (l1 ++ '\n' :: l2) =
      (segOfPiece 0 0 l1).toList ++ (segOfPiece 1 0 l2).toList := by
  constructor
  · have hnl : '\n' ∉ l1 ++ ':' :: l2 := by
      intro hm
      rcases List.mem_append.mp hm with h | h
      · exact h1n h
      · rcases List.mem_cons.mp h with h | h
        · exact absurd h (by decide)
        · exact h2n h
    have hmemr : '\r' ∉ ':' :: l2 := by
      intro hm
      rcases List.mem_cons.mp hm with h | h
      · exact absurd h (by decide)
      · exact h2r h
    have hlast : (l1 ++ ':' :: l2).getLast? ≠ some '\r' := by
      rw [List.getLast?_append_cons]
      exact getLast?_ne_of_not_mem hmemr
    simp only [collectSegments, splitLines, splitOnChar_eq_single hnl,
      List.map_cons, List.map_nil, stripCR_eq_self hlast,
      List.enum, List.enumFrom, List.flatMap_cons, List.flatMap_nil,
      List.append_nil]
    rw [splitOnChar_sep_append l2 h1c, splitOnChar_eq_single h2c]
    simp only [List.enum, List.enumFrom, List.filterMap_cons, List.filterMap_nil]
    cases hseg1 : segOfPiece 0 0 l1 <;> cases hseg2 : segOfPiece 0 1 l2 <;>
      simp [hseg1, hseg2]
  · have hl1 : (stripCR l1) = l1 :=
      stripCR_eq_self (getLast?_ne_of_not_mem h1r)
    have hl2 : (stripCR l2) = l2 :=
      stripCR_eq_self (getLast?_ne_of_not_mem h2r)
    simp only [collectSegments, splitLines, splitOnChar_sep_append l2 h1n,
      List.map_cons, List.map_nil, hl1, hl2, splitOnChar_eq_single h2n,
      List.enum, List.enumFrom, List.flatMap_cons, List.flatMap_nil,
      List.append_nil]
    rw [splitOnChar_eq_single h1c, splitOnChar_eq_single h2c]
    simp only [List.enum, List.enumFrom, List.filterMap_cons, List.filterMap_nil]
    cases hseg1 : segOfPiece 0 0 l1 <;> cases hseg2 : segOfPiece 1 0 l2 <;>
      simp [hseg1, hseg2]

/-- Witness: C10 applied to two concrete pieces, each free of colons and
newlines itself, where the first piece opens a quote that the second
never sees. -/
theorem c10_witness :
    collectSegments (str "do 'a" ++ ':' :: str "b' # x") =
      (segOfPiece 0 0 (str "do 'a")).toList ++
        (segOfPiece 0 1 (str "b' # x")).toList ∧
    collectSegments (str "do 'a" ++ '\n' :: str "b' # x") =
      (segOfPiece 0 0 (str "do 'a")).toList ++
        (segOfPiece 1 0 (str "b' # x")).toList :=
  c10_collectSegments_splits_unconditionally (str "do 'a") (str "b' # x")
    (by decide) (by decide) (by decide) (by decide) (by decide) (by decide)

/-! ## Claim C3: two tokens of the same keyword category -/

/-- A segment whose code (and raw text) is the given string, with no
comment. -/
def mkCodeSeg (code : Str) : LogicalSegment :=
  { physicalLine := 0, segmentIndex := 0, indent := 0, raw := code,
    code := code, comment := [] }

/-- C3 counterexample: on `"else then"` (two spec-keys) `SegGram` honors
the *second* token, not the first — the spec-key comes out as `"then"`;
likewise on `"dec end"` (two node-keys) the node-key comes out as
`"end"`.  The claim, as stated (first honored, second silently ignored),
is therefore false. -/
theorem c3_counterexample :
    SegGram (mkCodeSeg (str "else then")) =
      some { speckey := some (str "then"), nodekey := none, linekey := [],
             trimmedCode := [] } ∧
    SegGram (mkCodeSeg (str "dec end")) =
      some { speckey := none, nodekey := some (str "end"), linekey := [],
             trimmedCode := [] } := by
  decide

/-- C3 amended: when a segment's first two tokens both belong to the
same keyword category, `SegGram` consumes both but the *second* token
overwrites the first in that category's slot (the first is the one
silently discarded); the other category stays empty and no user text
remains. -/
theorem c3_amended (t1 t2 : Str) :
    (t1 ∈ SPEC_KEYS → t2 ∈ SPEC_KEYS →
      SegGram (mkCodeSeg (t1 ++ ' ' :: t2)) =
        some { speckey := some t2, nodekey := none, linekey := [],
               trimmedCode := [] }) ∧
    (t1 ∈ NODE_KEYS → t2 ∈ NODE_KEYS →
      SegGram (mkCodeSeg (t1 ++ ' ' :: t2)) =
        some { speckey := none, nodekey := some t2, linekey := [],
               trimmedCode := [] }) := by
  constructor
  · intro h1 h2
    simp only [SPEC_KEYS, List.mem_cons, List.not_mem_nil, or_false] at h1 h2
    rcases h1 with h1 | h1 <;> rcases h2 with h2 | h2 <;>
      subst h1 <;> subst h2 <;> decide
  · intro h1 h2
    simp only [NODE_KEYS, List.mem_cons, List.not_mem_nil, or_false] at h1 h2
    rcases h1 with h1 | h1 | h1 | h1 | h1 | h1 | h1 <;>
      rcases h2 with h2 | h2 | h2 | h2 | h2 | h2 | h2 <;>
        subst h1 <;> subst h2 <;> decide

/-- Witness: C3 amended applied at the node-key pair `("dec", "end")`. -/
theorem c3_witness :
    SegGram (mkCodeSeg (str "dec" ++ ' ' :: str "end")) =
      some { speckey := none, nodekey := some (str "end"), linekey := [],
             trimmedCode := [] } :=
  (c3_amended (str "dec") (str "end")).2 (by decide) (by decide)

/-! ## Claim C6: the structural validator -/

/-- The claim's fixed arity table, restated as per-node bounds:
`Start = {0 in, 1 out}`, `End = {1 in, 0 out}`,
`Process/Input/Output = {1 in, 1 out}`, `Decision = {≥1 in, ≥2 out}`,
`Connector = {≥1 in, exactly 1 out}`. -/
def satisfiesArity (edges : List Edge) (n : Node) : Prop :=
  if n.kind = NodeKind.Start then
    inDeg edges n.id = 0 ∧ outDeg edges n.id = 1
  else if n.kind = NodeKind.End then
    inDeg edges n.id = 1 ∧ outDeg edges n.id = 0
  else if n.kind = NodeKind.Decision then
    1 ≤ inDeg edges n.id ∧ 2 ≤ outDeg edges n.id
  else if n.kind = NodeKind.Connector then
    1 ≤ inDeg edges n.id ∧ outDeg edges n.id = 1
  else inDeg edges n.id = 1 ∧ outDeg edges n.id = 1

/-- The number of bounds a checked node violates (0 for an exempt
function-body member). -/
def violationCount (edges : List Edge) (n : Node) : Nat :=
  if containsRun (str "fun-body-of=") n.meta then 0
  else
    (if inDeg edges n.id < (NODE_ARITY_RULES n.kind).minIn then 1 else 0) +
    (match (NODE_ARITY_RULES n.kind).maxIn with
     | some m => if m < inDeg edges n.id then 1 else 0
     | none => 0) +
    (if outDeg edges n.id < (NODE_ARITY_RULES n.kind).minOut then 1 else 0) +
    (match (NODE_ARITY_RULES n.kind).maxOut with
     | some m => if m < outDeg edges n.id then 1 else 0
     | none => 0)

/-- The length of the message block of one node is its number of
violated bounds. -/
theorem arityMsgs_length (r : ArityRule) (info : Str) (i o : Nat) :
    (arityMsgs r info i o).length =
      (if i < r.minIn then 1 else 0) +
      (match r.maxIn with | some m => if m < i then 1 else 0 | none => 0) +
      (if o < r.minOut then 1 else 0) +
      (match r.maxOut with | some m => if m < o then 1 else 0 | none => 0) := by
  obtain ⟨mi, ma, mo, mb⟩ := r
  cases ma <;> cases mb <;>
    simp only [arityMsgs, List.length_append] <;>
      split_ifs <;> simp

/-- A node's message block is empty exactly when the node satisfies its
per-kind bounds. -/
theorem arityMsgs_eq_nil_iff (edges : List Edge) (n : Node) :
    (arityMsgs (NODE_ARITY_RULES n.kind) (nodeInfoStr n)
        (inDeg edges n.id) (outDeg edges n.id)) = [] ↔
      satisfiesArity edges n := by
  generalize hi : inDeg edges n.id = i
  generalize ho : outDeg edges n.id = o
  rw [← List.length_eq_zero, arityMsgs_length]
  unfold satisfiesArity
  rw [hi, ho]
  cases n.kind <;> simp [NODE_ARITY_RULES] <;> omega

/-- Length of a `flatMap` as the sum of the pieces' lengths. -/
theorem length_flatMap (l : List α) (f : α → List β) :
    (l.flatMap f).length = (l.map (fun a => (f a).length)).sum := by
  induction l with
  | nil => rfl
  | cons a l ih => simp [List.flatMap_cons, ih]

/-- C6: `validNodeIO` is pure (a function of the node and edge lists
alone); it checks every node not tagged as a function-body member
against the fixed arity table, walking nodes in creation order, inputs
before outputs; its output is empty exactly when every checked node
satisfies its bounds, and it emits exactly one message per violated
bound. -/
theorem c6_validNodeIO_characterisation (nodes : List Node) (edges : List Edge) :
    (( validNodeIO nodes edges) = [] ↔
      ∀ n ∈ nodes, containsRun (str "fun-body-of=") n.meta = false →
        satisfiesArity edges n) ∧
    ( validNodeIO nodes edges).length =
      (nodes.map (fun n => violationCount edges n)).sum := by
  constructor
  · rw [ validNodeIO, List.flatMap_eq_nil_iff]
    constructor
    · intro h n hn hmeta
      have := h n hn
      rw [hmeta] at this
      simp only [Bool.false_eq_true, if_false] at this
      exact (arityMsgs_eq_nil_iff edges n).mp this
    · intro h n hn
      by_cases hmeta : containsRun (str "fun-body-of=") n.meta = true
      · simp [hmeta]
      · have hm : containsRun (str "fun-body-of=") n.meta = false := by
          revert hmeta; cases containsRun (str "fun-body-of=") n.meta <;> simp
        rw [hm]
        simp only [Bool.false_eq_true, if_false]
        exact (arityMsgs_eq_nil_iff edges n).mpr (h n hn hm)
  · rw [ validNodeIO, length_flatMap]
    congr 1
    apply List.map_congr_left
    intro n _
    by_cases hmeta : containsRun (str "fun-body-of=") n.meta = true
    · simp [hmeta, violationCount]
    · have hm : containsRun (str "fun-body-of=") n.meta = false := by
        revert hmeta; cases containsRun (str "fun-body-of=") n.meta <;> simp
      rw [hm]
      simp only [Bool.false_eq_true, if_false, violationCount, hm]
      exact arityMsgs_length _ _ _ _

/-- Witness: C6 applied to the empty-document graph, whose validator
output is empty, so its two nodes satisfy their bounds. -/
theorem c6_witness :
    satisfiesArity [{ fro := 0, toN := 1, label := [] }] startNode0 := by
  have h := (c6_validNodeIO_characterisation
    [startNode0,
     { id := 1, kind := .End, line := 0, segmentIndex := 0, indent := 0,
       text := [], meta := str "implicit end" }]
    [{ fro := 0, toN := 1, label := [] }]).1
  exact h.mp (by decide) startNode0 (by decide) (by decide)

/-! ## Claim C2: the default edge into a connector -/

/-- C2 counterexample: in
`"do a\n    do b\n    do c\nii k"` the connector (node 4) is reached by
ordinary flow — the cursor is node 3 (`c`) when the connector segment is
processed, and the driver runs default sequential wiring with no
function context open — yet the final graph contains *no* incoming edge
into the connector at all: its default predecessor (node 3) lies outside
the fan-in window (different indentation) and `wireSequential` adds no
edge when the target is a connector.  The claimed fallback edge
`3 → 4` does not exist. -/
theorem c2_counterexample :
    ((parseivx (str "do a\n    do b\n    do c\nii k")).nodes.map
        (fun n => (n.id, n.kind))) =
      [(0, NodeKind.Start), (1, NodeKind.Process), (2, NodeKind.Process),
       (3, NodeKind.Process), (4, NodeKind.Connector), (5, NodeKind.End)] ∧
    (parseivx (str "do a\n    do b\n    do c\nii k")).edges =
      [{ fro := 0, toN := 1, label := [] }, { fro := 1, toN := 2, label := [] },
       { fro := 2, toN := 3, label := [] }, { fro := 4, toN := 5, label := [] }] ∧
    inDeg (parseivx (str "do a\n    do b\n    do c\nii k")).edges 4 = 0 := by
  decide

/-- The shared tail of `wireSequential` on a `Connector` target: no edge
is inserted, and with cursor update on an untagged connector the cursor
moves to it. -/
theorem wireSequentialProceed_connector (gb : GraphBuilder) (tn : Node)
    (updateLast : Bool) (fromB : Option Node)
    (hkind : tn.kind = NodeKind.Connector) :
    (wireSequentialProceed gb tn updateLast fromB).edges = gb.edges ∧
    (updateLast = true → isLoopOrNextNode (some tn) = false →
      (wireSequentialProceed gb tn updateLast fromB).lastExecutableNode =
        some tn.id) := by
  unfold wireSequentialProceed
  rw [if_pos hkind]
  constructor
  · split_ifs <;> rfl
  · intro hu ht
    rw [if_pos ⟨hu, by rw [ht]; exact Bool.false_ne_true⟩]

/-- C2 amended: the connector handler does run default sequential wiring
with cursor-update enabled when no function context is open, but
`wireSequential` inserts *no* edge when its target is a `Connector`: the
edge set is unchanged and (for an untagged connector, when the cursor is
set) the cursor simply advances to the connector.  The default-wiring
call therefore never contributes the claimed fallback edge; an incoming
connector edge arises only from the other mechanisms (fan-in
computation, loop/branch wiring, or the post-parse finalization fixups,
which can still add a `Start`-to-connector or first-to-second-node edge),
and when none of those applies the connector ends with no incoming edge
at all, as the counterexample input shows. -/
theorem c2_amended (gb : GraphBuilder) (toId : Nat) (tn : Node)
    (hfind : findNode gb toId = some tn)
    (hkind : tn.kind = NodeKind.Connector) :
    (gb.wireSequential toId true).edges = gb.edges ∧
    (isLoopOrNextNode (some tn) = false → gb.lastExecutableNode ≠ none →
      (gb.wireSequential toId true).lastExecutableNode = some tn.id) := by
  unfold GraphBuilder.wireSequential
  rw [hfind]
  cases hc : gb.lastExecutableNode with
  | some i =>
    have h := wireSequentialProceed_connector gb tn true (findNode gb i) hkind
    exact ⟨h.1, fun ht _ => h.2 rfl ht⟩
  | none =>
    constructor
    · split_ifs with h1
      · cases hfl : findLastNonSentinel gb.nodes with
        | none => rfl
        | some n => exact (wireSequentialProceed_connector gb tn true (some n) hkind).1
      · exact (wireSequentialProceed_connector gb tn true (some gb.startNode) hkind).1
    · intro _ hne
      exact absurd rfl hne

/-- A builder state with cursor on node 1 and a connector node 2, used
to instantiate the C2 amended theorem. -/
def gbC2W : GraphBuilder :=
  { nodes := [startNode0,
      { id := 1, kind := .Process, line := 0, segmentIndex := 0, indent := 0,
        text := str "a", meta := [] },
      { id := 2, kind := .Connector, line := 1, segmentIndex := 0, indent := 1,
        text := str "k", meta := [] }],
    edges := [{ fro := 0, toN := 1, label := [] }],
    startNode := startNode0, endNodeId := none, nextId := 3,
    lastExecutableNode := some 1, lastConnectorLikeNode := some 2,
    pendingNextNodes := [] }

/-- Witness: C2 amended applied at `gbC2W` with target node 2. -/
theorem c2_witness :
    (gbC2W.wireSequential 2 true).edges = gbC2W.edges ∧
    (gbC2W.wireSequential 2 true).lastExecutableNode = some 2 := by
  have h := c2_amended gbC2W 2
    { id := 2, kind := .Connector, line := 1, segmentIndex := 0, indent := 1,
      text := str "k", meta := [] } (by decide) rfl
  exact ⟨h.1, h.2 (by decide) (by decide)⟩

/-! ## Claim C1: the connector fan-in feeder rule -/

/-- The candidate ids of a connector's fan-in window. -/
def faninIds (gb : GraphBuilder) (c : Node) : List Nat :=
  (faninWindowOf gb.nodes c).map (·.id)

/-- The induced successor map used by the fan-in reachability query. -/
def faninSuccs (gb : GraphBuilder) (c : Node) : Nat → List Nat :=
  succsInWindow gb.edges (faninIds gb c)

/-- The closure bound used by the fan-in reachability query. -/
def faninFuel (gb : GraphBuilder) (c : Node) : Nat :=
  (faninIds gb c).length + 1

/-- `b` is reachable from `a` by a directed walk inside the subgraph
induced on the fan-in candidates. -/
def faninReaches (gb : GraphBuilder) (c : Node) (a b : Nat) : Prop :=
  b ∈ reachFrom (faninSuccs gb c) (faninFuel gb c) [a]

instance (gb : GraphBuilder) (c : Node) (a b : Nat) :
    Decidable (faninReaches gb c a b) :=
  inferInstanceAs (Decidable (b ∈ reachFrom (faninSuccs gb c) (faninFuel gb c) [a]))

/-- Can candidate `a` reach some *other* candidate of the window?  (The
drop test of the fan-in filter, taken against the full candidate set.) -/
def reachesOtherCandidate (gb : GraphBuilder) (c : Node) (a : Nat) : Bool :=
  canReachFeeder (faninSuccs gb c) (faninFuel gb c) (faninIds gb c) a

/-- `canReachFeeder` is monotone in the feeder set. -/
theorem canReachFeeder_mono {succs : Nat → List Nat} {fuel : Nat}
    {fs ids : List Nat} (hsub : ∀ x ∈ fs, x ∈ ids) {n : Nat}
    (h : canReachFeeder succs fuel fs n = true) :
    canReachFeeder succs fuel ids n = true := by
  unfold canReachFeeder at *
  rw [List.any_eq_true] at *
  obtain ⟨y, hy, hp⟩ := h
  simp only [decide_eq_true_eq] at hp
  exact ⟨y, hy, by simp only [decide_eq_true_eq]; exact ⟨hp.1, hsub y hp.2⟩⟩

/-- One step of the fan-in feeder filter. -/
def feederStep (succs : Nat → List Nat) (fuel : Nat) (fs : List Nat)
    (n : Node) : List Nat :=
  if n.id ∈ fs ∧ canReachFeeder succs fuel fs n.id then fs.erase n.id else fs

/-- A candidate that cannot reach any other candidate of the full window
is never dropped by the filter fold, and the fold stays inside the
candidate set. -/
theorem feederFold_keeps (succs : Nat → List Nat) (fuel : Nat)
    (ids : List Nat) (n0 : Nat)
    (hnr : canReachFeeder succs fuel ids n0 = false) :
    ∀ (ws : List Node) (fs : List Nat), (∀ x ∈ fs, x ∈ ids) → n0 ∈ fs →
      n0 ∈ ws.foldl (feederStep succs fuel) fs ∧
        ∀ x ∈ ws.foldl (feederStep succs fuel) fs, x ∈ ids := by
  intro ws
  induction ws with
  | nil => intro fs hsub hmem; exact ⟨hmem, hsub⟩
  | cons m ws ih =>
    intro fs hsub hmem
    simp only [List.foldl_cons]
    by_cases hcond : m.id ∈ fs ∧ canReachFeeder succs fuel fs m.id = true
    · rw [feederStep, if_pos hcond]
      apply ih
      · intro x hx; exact hsub x (List.mem_of_mem_erase hx)
      · have hne : n0 ≠ m.id := by
          rintro rfl
          rw [canReachFeeder_mono hsub hcond.2] at hnr
          exact Bool.noConfusion hnr
        exact (List.mem_erase_of_ne hne).mpr hmem
    · rw [feederStep, if_neg hcond]
      exact ih fs hsub hmem

/-- A candidate that can reach a terminal candidate (one that reaches no
other candidate) is dropped by the filter fold and never re-added. -/
theorem feederFold_drops (succs : Nat → List Nat) (fuel : Nat)
    (ids : List Nat) (t n0 : Nat) (hne : t ≠ n0)
    (hreach : t ∈ reachFrom succs fuel [n0])
    (htr : canReachFeeder succs fuel ids t = false) :
    ∀ (ws : List Node) (fs : List Nat), (∀ x ∈ fs, x ∈ ids) → fs.Nodup →
      t ∈ fs → ((∃ m ∈ ws, m.id = n0) ∨ n0 ∉ fs) →
      n0 ∉ ws.foldl (feederStep succs fuel) fs := by
  intro ws
  induction ws with
  | nil =>
    intro fs _ _ _ hcase
    rcases hcase with ⟨m, hm, _⟩ | h
    · exact absurd hm (List.not_mem_nil m)
    · exact h
  | cons m ws ih =>
    intro fs hsub hnd ht hcase
    simp only [List.foldl_cons]
    have htm : t ≠ m.id ∨ ¬(m.id ∈ fs ∧ canReachFeeder succs fuel fs m.id = true) := by
      by_cases he : t = m.id
      · subst he
        right
        rintro ⟨_, hcr⟩
        rw [canReachFeeder_mono hsub hcr] at htr
        exact Bool.noConfusion htr
      · exact Or.inl he
    by_cases hcond : m.id ∈ fs ∧ canReachFeeder succs fuel fs m.id = true
    · rw [feederStep, if_pos hcond]
      have htne : t ≠ m.id := by
        rcases htm with h | h
        · exact h
        · exact absurd hcond h
      apply ih
      · intro x hx; exact hsub x (List.mem_of_mem_erase hx)
      · exact hnd.erase m.id
      · exact (List.mem_erase_of_ne htne).mpr ht
      · rcases hcase with ⟨m', hm', hid⟩ | h
        · rcases List.mem_cons.mp hm' with rfl | hm'
          · right
            rw [hid]
            rw [List.Nodup.mem_erase_iff hnd]
            rintro ⟨habs, _⟩
            exact habs rfl
          · exact Or.inl ⟨m', hm', hid⟩
        · right
          intro habs
          exact h (List.mem_of_mem_erase habs)
    · rw [feederStep, if_neg hcond]
      apply ih fs hsub hnd ht
      rcases hcase with ⟨m', hm', hid⟩ | h
      · rcases List.mem_cons.mp hm' with rfl | hm'
        · right
          intro habs
          apply hcond
          rw [hid]
          refine ⟨habs, ?_⟩
          unfold canReachFeeder
          rw [List.any_eq_true]
          exact ⟨t, hreach, by simp only [decide_eq_true_eq]; exact ⟨hne, ht⟩⟩
        · exact Or.inl ⟨m', hm', hid⟩
      · exact Or.inr h

/-- `hasEdge` is monotone under deduplicated insertion. -/
theorem hasEdge_pushEdgeL_mono {es : List Edge} {e : Edge} {f t : Nat}
    {l : Str} (h : hasEdge es f t l = true) :
    hasEdge (pushEdgeL es e) f t l = true := by
  unfold pushEdgeL
  split_ifs
  · exact h
  · unfold hasEdge at *
    rw [List.any_append, h]
    rfl

/-- After inserting an edge, `hasEdge` finds its triple. -/
theorem hasEdge_pushEdgeL_self (es : List Edge) (e : Edge) :
    hasEdge (pushEdgeL es e) e.fro e.toN e.label = true := by
  unfold pushEdgeL
  split_ifs with h
  · exact h
  · unfold hasEdge
    rw [List.any_append]
    simp

/-- Inserting an edge with a different triple does not change a
`hasEdge` query. -/
theorem hasEdge_pushEdgeL_other {es : List Edge} {e : Edge} {f t : Nat}
    {l : Str} (hne : ¬(e.fro = f ∧ e.toN = t ∧ e.label = l)) :
    hasEdge (pushEdgeL es e) f t l = hasEdge es f t l := by
  unfold pushEdgeL
  split_ifs
  · rfl
  · unfold hasEdge
    rw [List.any_append]
    have : [e].any (fun e => e.fro = f ∧ e.toN = t ∧ e.label = l) = false := by
      simp only [List.any_cons, List.any_nil, Bool.or_false,
        decide_eq_false_iff_not]
      exact hne
    rw [this, Bool.or_false]

/-- The edge-adding fold inserts an edge from every untagged feeder of
the window into the connector. -/
theorem faninEdgesFold_adds (cid : Nat) (feeders : List Nat) (n0 : Nat) :
    ∀ (ws : List Node) (g : GraphBuilder),
      ((∃ m ∈ ws, m.id = n0 ∧ isLoopOrNextNode (some m) = false) ∨
        hasEdge g.edges n0 cid [] = true) →
      n0 ∈ feeders →
      hasEdge (faninEdgesFold g cid ws feeders).edges n0 cid [] = true := by
  intro ws
  induction ws with
  | nil =>
    intro g hcase hf
    rcases hcase with ⟨m, hm, _⟩ | h
    · exact absurd hm (List.not_mem_nil m)
    · exact h
  | cons m ws ih =>
    intro g hcase hf
    unfold faninEdgesFold
    simp only [List.foldl_cons]
    show hasEdge (faninEdgesFold _ cid ws feeders).edges n0 cid [] = true
    by_cases hcond : isLoopOrNextNode (some m) ∨ m.id ∉ feeders
    · rw [if_pos hcond]
      apply ih
      · rcases hcase with ⟨m', hm', hid, htag⟩ | h
        · rcases List.mem_cons.mp hm' with rfl | hm'
          · rcases hcond with hl | hnf
            · rw [htag] at hl
              exact absurd hl Bool.false_ne_true
            · rw [hid] at hnf
              exact absurd hf hnf
          · exact Or.inl ⟨m', hm', hid, htag⟩
        · exact Or.inr h
      · exact hf
    · rw [if_neg hcond]
      apply ih
      · rcases hcase with ⟨m', hm', hid, htag⟩ | h
        · rcases List.mem_cons.mp hm' with rfl | hm'
          · right
            rw [← hid]
            exact hasEdge_pushEdgeL_self g.edges _
          · exact Or.inl ⟨m', hm', hid, htag⟩
        · right
          exact hasEdge_pushEdgeL_mono h
      · exact hf

/-- The edge-adding fold adds no edge out of a non-feeder id. -/
theorem faninEdgesFold_no_new (cid : Nat) (feeders : List Nat) (n0 : Nat)
    (hnf : n0 ∉ feeders) :
    ∀ (ws : List Node) (g : GraphBuilder),
      hasEdge (faninEdgesFold g cid ws feeders).edges n0 cid [] =
        hasEdge g.edges n0 cid [] := by
  intro ws
  induction ws with
  | nil => intro g; rfl
  | cons m ws ih =>
    intro g
    unfold faninEdgesFold
    simp only [List.foldl_cons]
    show hasEdge (faninEdgesFold _ cid ws feeders).edges n0 cid [] = _
    by_cases hcond : isLoopOrNextNode (some m) ∨ m.id ∉ feeders
    · rw [if_pos hcond]
      exact ih g
    · rw [if_neg hcond]
      push_neg at hcond
      have hmne : m.id ≠ n0 := fun habs => hnf (habs ▸ hcond.2)
      rw [ih]
      exact hasEdge_pushEdgeL_other (fun habs => hmne habs.1)

/-- Membership in the fan-in window implies a different id from the
connector. -/
theorem faninWindow_ne_connector {nodes : List Node} {c n : Node}
    (h : n ∈ faninWindowOf nodes c) : n.id ≠ c.id := by
  unfold faninWindowOf at h
  have := List.of_mem_filter h
  simp only [Bool.and_eq_true, decide_eq_true_eq] at this
  exact this.1.1

/-- The trailing fallback step can only add an edge *out of* the
connector, so `hasEdge` queries out of a different id are unchanged. -/
theorem connectorFallbackOut_preserves {gb : GraphBuilder} {c : Node}
    {n0 : Nat} (hne : n0 ≠ c.id) (cid : Nat) :
    hasEdge (connectorFallbackOut gb c).edges n0 cid [] =
      hasEdge gb.edges n0 cid [] := by
  unfold connectorFallbackOut
  split_ifs
  · rfl
  · cases h : gb.nodes.find? (fun n =>
        decide (n.id ≠ c.id) && isNonSentinel n &&
          decide (n.indent = c.indent ∧ c.line < n.line)) with
    | none => rfl
    | some nxt =>
      exact hasEdge_pushEdgeL_other (fun habs => hne habs.1.symm)

/-- C1 amended: during fan-in computation, candidates are examined in
creation order against the *shrinking* feeder set, and a candidate is
dropped when *it* can still reach another remaining candidate via a
directed walk in the induced subgraph (not when another candidate
reaches it).  Consequently: a candidate that reaches no other candidate
and is not loop-back/forward-jump-tagged receives a deduplicated edge
into the connector; a candidate that can reach a terminal candidate
(one reaching no other) is dropped and receives no new edge. -/
theorem c1_amended (gb : GraphBuilder) (c n : Node)
    (hwin : n ∈ faninWindowOf gb.nodes c)
    (hnd : (faninIds gb c).Nodup) :
    (reachesOtherCandidate gb c n.id = false →
      isLoopOrNextNode (some n) = false →
      hasEdge (gb.computeConnectorFanin c).edges n.id c.id [] = true) ∧
    (∀ t, t ∈ faninIds gb c → t ≠ n.id → faninReaches gb c n.id t →
      reachesOtherCandidate gb c t = false →
      hasEdge (gb.computeConnectorFanin c).edges n.id c.id [] =
        hasEdge gb.edges n.id c.id []) := by
  have hmemids : n.id ∈ faninIds gb c := List.mem_map_of_mem (·.id) hwin
  have hfeeders : faninFeederIds gb.edges (faninWindowOf gb.nodes c) =
      (faninWindowOf gb.nodes c).foldl
        (feederStep (faninSuccs gb c) (faninFuel gb c)) (faninIds gb c) := rfl
  constructor
  · intro hnr htag
    have hkeep := (feederFold_keeps (faninSuccs gb c) (faninFuel gb c)
      (faninIds gb c) n.id hnr (faninWindowOf gb.nodes c) (faninIds gb c)
      (fun x hx => hx) hmemids).1
    rw [← hfeeders] at hkeep
    have hadd := faninEdgesFold_adds c.id
      (faninFeederIds gb.edges (faninWindowOf gb.nodes c)) n.id
      (faninWindowOf gb.nodes c) gb (Or.inl ⟨n, hwin, rfl, htag⟩) hkeep
    unfold GraphBuilder.computeConnectorFanin
    unfold connectorFallbackOut
    split_ifs
    · exact hadd
    · cases hfind : (faninEdgesFold gb c.id (faninWindowOf gb.nodes c)
          (faninFeederIds gb.edges (faninWindowOf gb.nodes c))).nodes.find?
          (fun m => decide (m.id ≠ c.id) && isNonSentinel m &&
            decide (m.indent = c.indent ∧ c.line < m.line)) with
      | none => exact hadd
      | some nxt => exact hasEdge_pushEdgeL_mono hadd
  · intro t htmem htne hreach htr
    have hdrop := feederFold_drops (faninSuccs gb c) (faninFuel gb c)
      (faninIds gb c) t n.id htne hreach htr (faninWindowOf gb.nodes c)
      (faninIds gb c) (fun x hx => hx) hnd htmem (Or.inl ⟨n, hwin, rfl⟩)
    rw [← hfeeders] at hdrop
    have hpres := faninEdgesFold_no_new c.id
      (faninFeederIds gb.edges (faninWindowOf gb.nodes c)) n.id hdrop
      (faninWindowOf gb.nodes c) gb
    unfold GraphBuilder.computeConnectorFanin
    rw [connectorFallbackOut_preserves (faninWindow_ne_connector hwin) c.id]
    exact hpres

/-- Candidate node `a` of the C1 state (id 2). -/
def aC1W : Node :=
  { id := 2, kind := .Process, line := 1, segmentIndex := 0, indent := 0,
    text := str "a", meta := [] }

/-- Candidate node `b` of the C1 state (id 3). -/
def bC1W : Node :=
  { id := 3, kind := .Process, line := 2, segmentIndex := 0, indent := 0,
    text := str "b", meta := [] }

/-- The connector node of the C1 state (id 4). -/
def cC1W : Node :=
  { id := 4, kind := .Connector, line := 3, segmentIndex := 0, indent := 0,
    text := str "c", meta := [] }

/-- The builder state reached by `parseivx` on
`"x\ndo a\ndo b\nii c"` at the moment `computeConnectorFanin` runs on
the connector (node 4): chain `Start → x → a → b`, with `a` and `b` the
fan-in candidates. -/
def gbC1W : GraphBuilder :=
  { nodes := [startNode0,
      { id := 1, kind := .Process, line := 0, segmentIndex := 0, indent := 0,
        text := str "x", meta := [] },
      aC1W, bC1W, cC1W],
    edges := [{ fro := 0, toN := 1, label := [] },
      { fro := 1, toN := 2, label := [] }, { fro := 2, toN := 3, label := [] }],
    startNode := startNode0, endNodeId := none, nextId := 5,
    lastExecutableNode := some 4, lastConnectorLikeNode := some 4,
    pendingNextNodes := [] }

/-- C1 counterexample: in the fan-in computation for the connector of
`gbC1W`, the candidate window is `{2, 3}` with the single induced edge
`2 → 3`.  Candidate 2 is reached by *no* other candidate (3 does not
reach 2) and carries no loop/jump tag, so by the claim it should remain
a feeder and receive an edge into the connector — but the code drops
the *reaching* side: no edge `2 → 4` is added, while `3 → 4` is. -/
theorem c1_counterexample :
    faninIds gbC1W cC1W = [2, 3] ∧
    (¬faninReaches gbC1W cC1W 3 2) ∧
    isLoopOrNextNode (some aC1W) = false ∧
    faninReaches gbC1W cC1W 2 3 ∧
    hasEdge (gbC1W.computeConnectorFanin cC1W).edges 2 4 [] = false ∧
    hasEdge (gbC1W.computeConnectorFanin cC1W).edges 3 4 [] = true := by
  decide

/-- Witness: C1 amended applied at `gbC1W` — part one for candidate 3
(reaches no other candidate, so it feeds), part two for candidate 2
(reaches terminal candidate 3, so it is dropped and gains no edge). -/
theorem c1_witness :
    hasEdge (gbC1W.computeConnectorFanin cC1W).edges 3 4 [] = true ∧
    hasEdge (gbC1W.computeConnectorFanin cC1W).edges 2 4 [] =
      hasEdge gbC1W.edges 2 4 [] := by
  have hb := c1_amended gbC1W cC1W bC1W (by decide) (by decide)
  have ha := c1_amended gbC1W cC1W aC1W (by decide) (by decide)
  exact ⟨hb.1 (by decide) (by decide),
    ha.2 3 (by decide) (by decide) (by decide) (by decide)⟩

/-! ## Builder invariants (claims C4, C5, C8) -/

/-- The id/kind skeleton of the node arena. -/
def nodeShape (nodes : List Node) : List (Nat × NodeKind) :=
  nodes.map (fun n => (n.id, n.kind))

/-- Arena well-formedness: the node list starts with the `Start` node
(id 0), contains no other `Start` node, has strictly increasing ids, and
all ids are below the allocation counter. -/
def GoodNodes (gb : GraphBuilder) : Prop :=
  (∃ h t, gb.nodes = h :: t ∧ h.id = 0 ∧ h.kind = NodeKind.Start ∧
    ∀ n ∈ t, n.kind ≠ NodeKind.Start) ∧
  List.Chain' (fun a b => a.id < b.id) gb.nodes ∧
  ∀ n ∈ gb.nodes, n.id < gb.nextId

/-- No two edges share their `(from, to, label)` triple. -/
def EdgeNoDup (es : List Edge) : Prop :=
  es.Pairwise (fun a b => ¬(a.fro = b.fro ∧ a.toN = b.toN ∧ a.label = b.label))

/-- Every function context records a last body node exactly when its
body list is non-empty (the invariant behind the source's
`funCtx.lastBodyNodeId!` assertion). -/
def FunStackInv (fs : List FunContext) : Prop :=
  ∀ fc ∈ fs, (fc.bodyNodeIds = [] ↔ fc.lastBodyNodeId = none)

/-- The combined parse-state invariant. -/
def StInv (st : PState) : Prop :=
  GoodNodes st.gb ∧ EdgeNoDup st.gb.edges ∧ FunStackInv st.funStack

/-- Deduplicated insertion preserves triple-uniqueness. -/
theorem pushEdgeL_noDup {es : List Edge} (e : Edge) (h : EdgeNoDup es) :
    EdgeNoDup (pushEdgeL es e) := by
  unfold pushEdgeL
  split_ifs with hdup
  · exact h
  · rw [EdgeNoDup, List.pairwise_append]
    refine ⟨h, List.pairwise_singleton _ e, ?_⟩
    intro a ha b hb
    rw [List.mem_singleton] at hb
    subst hb
    intro ⟨h1, h2, h3⟩
    apply hdup
    unfold hasEdge
    rw [List.any_eq_true]
    exact ⟨a, ha, by simp only [decide_eq_true_eq]; exact ⟨h1, h2, h3⟩⟩

/-- Builder preservation: the target preserves arena well-formedness and
edge uniqueness whenever the source has them. -/
def GBPres (gb gb' : GraphBuilder) : Prop :=
  (GoodNodes gb → GoodNodes gb') ∧ (EdgeNoDup gb.edges → EdgeNoDup gb'.edges)

theorem gbPres_refl (gb : GraphBuilder) : GBPres gb gb := ⟨id, id⟩

theorem gbPres_trans {gb1 gb2 gb3 : GraphBuilder} (h1 : GBPres gb1 gb2)
    (h2 : GBPres gb2 gb3) : GBPres gb1 gb3 :=
  ⟨fun h => h2.1 (h1.1 h), fun h => h2.2 (h1.2 h)⟩

/-- A builder whose nodes, counter and edges agree with another's is
interchangeable for preservation purposes (cursor-only updates). -/
theorem gbPres_of_eq {gb gb' : GraphBuilder} (h1 : gb'.nodes = gb.nodes)
    (h2 : gb'.nextId = gb.nextId) (h3 : gb'.edges = gb.edges) :
    GBPres gb gb' := by
  constructor
  · intro hg
    unfold GoodNodes at *
    rw [h1, h2]
    exact hg
  · intro hd
    rw [h3]
    exact hd

theorem gbPres_pushEdge (gb : GraphBuilder) (e : Edge) :
    GBPres gb (gb.pushEdge e) := by
  constructor
  · intro hg
    unfold GoodNodes at *
    exact hg
  · intro hd
    exact pushEdgeL_noDup e hd

/-- The meta update rewrites each node in place, preserving id and
kind. -/
theorem updateMeta_id_kind (i : Nat) (f : Str → Str) (n : Node) :
    (if n.id = i then { n with meta := f n.meta } else n).id = n.id ∧
    (if n.id = i then { n with meta := f n.meta } else n).kind = n.kind := by
  split_ifs <;> exact ⟨rfl, rfl⟩

theorem gbPres_updateMeta (gb : GraphBuilder) (i : Nat) (f : Str → Str) :
    GBPres gb (gb.updateMeta i f) := by
  refine ⟨?_, fun h => h⟩
  intro ⟨⟨h, t, hcons, hid, hkind, htail⟩, hchain, hbound⟩
  refine ⟨⟨(if h.id = i then { h with meta := f h.meta } else h),
    t.map (fun n => if n.id = i then { n with meta := f n.meta } else n), ?_, ?_, ?_, ?_⟩, ?_, ?_⟩
  · show gb.nodes.map _ = _
    rw [hcons, List.map_cons]
  · rw [(updateMeta_id_kind i f h).1, hid]
  · rw [(updateMeta_id_kind i f h).2, hkind]
  · intro n hn
    obtain ⟨m, hm, rfl⟩ := List.mem_map.mp hn
    rw [(updateMeta_id_kind i f m).2]
    exact htail m hm
  · show List.Chain' _ (gb.nodes.map _)
    rw [List.chain'_map]
    exact hchain.imp (fun a b hab => by
      rw [(updateMeta_id_kind i f a).1, (updateMeta_id_kind i f b).1]
      exact hab)
  · intro n hn
    obtain ⟨m, hm, rfl⟩ := List.mem_map.mp hn
    rw [(updateMeta_id_kind i f m).1]
    exact hbound m hm

/-- Appending a freshly numbered non-`Start` node preserves arena
well-formedness. -/
theorem goodNodes_append (gb : GraphBuilder) (node : Node)
    (hid : node.id = gb.nextId) (hkind : node.kind ≠ NodeKind.Start)
    (hg : GoodNodes gb) :
    GoodNodes { gb with nodes := gb.nodes ++ [node], nextId := gb.nextId + 1 } := by
  obtain ⟨⟨h, t, hcons, hid0, hstart, htail⟩, hchain, hbound⟩ := hg
  refine ⟨⟨h, t ++ [node], ?_, hid0, hstart, ?_⟩, ?_, ?_⟩
  · show gb.nodes ++ [node] = _
    rw [hcons, List.cons_append]
  · intro n hn
    rcases List.mem_append.mp hn with hn | hn
    · exact htail n hn
    · rw [List.mem_singleton] at hn
      subst hn
      exact hkind
  · show List.Chain' _ (gb.nodes ++ [node])
    rw [List.chain'_append]
    refine ⟨hchain, List.chain'_singleton node, ?_⟩
    intro x hx y hy
    rw [List.head?_cons, Option.mem_some_iff] at hy
    subst hy
    rw [hid]
    exact hbound x (List.mem_of_mem_getLast? hx)
  · intro n hn
    rcases List.mem_append.mp hn with hn | hn
    · exact Nat.lt_succ_of_lt (hbound n hn)
    · rw [List.mem_singleton] at hn
      subst hn
      rw [hid]
      exact Nat.lt_succ_self _

theorem gbPres_makeNode (gb : GraphBuilder) (kind : NodeKind)
    (seg : LogicalSegment) (text : Str) (hkind : kind ≠ NodeKind.Start) :
    GBPres gb (gb.makeNode kind seg text).1 := by
  refine ⟨fun hg => ?_, fun h => h⟩
  exact goodNodes_append gb _ rfl hkind hg

theorem gbPres_createImplicitEnd (gb : GraphBuilder) (line si : Nat)
    (meta : Str) : GBPres gb (gb.createImplicitEnd line si meta).1 := by
  refine ⟨fun hg => ?_, fun h => h⟩
  have := goodNodes_append gb
    { id := gb.nextId, kind := .End, line := line, segmentIndex := si,
      indent := 0, text := [], meta := meta } rfl (by simp) hg
  unfold GoodNodes at *
  exact this

/-- Cursor-only builder updates are preservation-neutral. -/
theorem gbPres_setCursor (gb : GraphBuilder) (x : Option Nat) :
    GBPres gb { gb with lastExecutableNode := x } :=
  ⟨fun h => h, fun h => h⟩

/-- Pending-queue-only builder updates are preservation-neutral. -/
theorem gbPres_pendingUpdate (gb : GraphBuilder) (ids : List Nat) :
    GBPres gb { gb with pendingNextNodes := ids } :=
  ⟨fun h => h, fun h => h⟩

theorem gbPres_finalizeNode (gb : GraphBuilder) (nodeId : Nat)
    (gram : Grammar) : GBPres gb (gb.finalizeNode nodeId gram) := by
  simp only [GraphBuilder.finalizeNode]
  repeat' split
  all_goals first
    | exact gbPres_refl gb
    | exact gbPres_trans (gbPres_pushEdge gb _) (gbPres_updateMeta _ _ _)
    | exact gbPres_trans (gbPres_pendingUpdate _ _) (gbPres_updateMeta _ _ _)
    | exact gbPres_trans
        (gbPres_trans (gbPres_pushEdge gb _) (gbPres_updateMeta _ _ _))
        (gbPres_trans (gbPres_pendingUpdate _ _) (gbPres_updateMeta _ _ _))

theorem gbPres_wireSequentialProceed (gb : GraphBuilder) (tn : Node)
    (u : Bool) (fromB : Option Node) :
    GBPres gb (wireSequentialProceed gb tn u fromB) := by
  simp only [wireSequentialProceed]
  repeat' split
  all_goals first
    | exact gbPres_refl gb
    | exact gbPres_setCursor _ _
    | exact gbPres_pushEdge gb _
    | exact gbPres_trans (gbPres_pushEdge gb _) (gbPres_setCursor _ _)

theorem gbPres_wireSequential (gb : GraphBuilder) (toId : Nat) (u : Bool) :
    GBPres gb (gb.wireSequential toId u) := by
  simp only [GraphBuilder.wireSequential]
  repeat' split
  all_goals first
    | exact gbPres_refl gb
    | exact gbPres_wireSequentialProceed gb _ u _

theorem gbPres_faninEdgesFold (cid : Nat) (feeders : List Nat) :
    ∀ (ws : List Node) (g : GraphBuilder),
      GBPres g (faninEdgesFold g cid ws feeders) := by
  intro ws
  induction ws with
  | nil => intro g; exact gbPres_refl g
  | cons m ws ih =>
    intro g
    unfold faninEdgesFold
    simp only [List.foldl_cons]
    show GBPres g (faninEdgesFold _ cid ws feeders)
    split
    · exact ih g
    · exact gbPres_trans (gbPres_pushEdge g _) (ih _)

theorem gbPres_connectorFallbackOut (gb : GraphBuilder) (c : Node) :
    GBPres gb (connectorFallbackOut gb c) := by
  simp only [connectorFallbackOut]
  repeat' split
  all_goals first
    | exact gbPres_refl gb
    | exact gbPres_pushEdge gb _

theorem gbPres_computeConnectorFanin (gb : GraphBuilder) (c : Node) :
    GBPres gb (gb.computeConnectorFanin c) := by
  unfold GraphBuilder.computeConnectorFanin
  exact gbPres_trans (gbPres_faninEdgesFold c.id _ _ gb)
    (gbPres_connectorFallbackOut _ c)

theorem gbPres_resolvePendingNextGo :
    ∀ (ids : List Nat) (g : GraphBuilder),
      GBPres g (ids.foldl (fun g nid =>
        match findNode g nid with
        | none => g
        | some node =>
          match findNextConnector g.nodes node with
          | some conn =>
            if g.edges.any (fun e => e.fro = nid ∧ e.toN = conn.id) then g
            else g.pushEdge { fro := nid, toN := conn.id, label := [] }
          | none => g) g) := by
  intro ids
  induction ids with
  | nil => intro g; exact gbPres_refl g
  | cons i ids ih =>
    intro g
    simp only [List.foldl_cons]
    refine gbPres_trans ?_ (ih _)
    repeat' split
    all_goals first
      | exact gbPres_refl g
      | exact gbPres_pushEdge g _

theorem gbPres_resolvePendingNext (gb : GraphBuilder) :
    GBPres gb (resolvePendingNext gb) :=
  gbPres_resolvePendingNextGo gb.pendingNextNodes gb

/-! ### Parse-state preservation -/

theorem stInv_of {st st' : PState} (hgb : GBPres st.gb st'.gb)
    (hfs : FunStackInv st.funStack → FunStackInv st'.funStack) :
    StInv st → StInv st' :=
  fun ⟨hg, he, hf⟩ => ⟨hgb.1 hg, hgb.2 he, hfs hf⟩

theorem stInv_registerInFun (st : PState) (nodeId : Nat) :
    StInv st → StInv (registerInFun st nodeId) := by
  intro h
  unfold registerInFun
  cases hfs : st.funStack with
  | nil => exact h
  | cons top rest =>
    refine stInv_of ?_ ?_ h
    · refine gbPres_trans ?_ (gbPres_updateMeta _ _ _)
      repeat' split
      all_goals first
        | exact gbPres_refl st.gb
        | exact gbPres_pushEdge st.gb _
    · intro hfi fc hfc
      rcases List.mem_cons.mp hfc with rfl | hfc
      · constructor
        · intro habs
          exact absurd habs (by simp)
        · intro habs
          exact absurd habs (by simp)
      · exact hfi fc (hfs ▸ List.mem_cons_of_mem _ hfc)

theorem stInv_createExecutableNode (st : PState) (kind : NodeKind)
    (seg : LogicalSegment) (text : Str) (gram : Grammar) (skip : Bool)
    (hkind : kind ≠ NodeKind.Start) :
    StInv st → StInv (createExecutableNode st kind seg text gram skip).1 := by
  intro h
  have h1 : StInv { st with
      gb := (st.gb.makeNode kind seg text).1.finalizeNode
        (st.gb.makeNode kind seg text).2.id gram,
      lastNode := some (st.gb.makeNode kind seg text).2.id } :=
    stInv_of (gbPres_trans (gbPres_makeNode st.gb kind seg text hkind)
      (gbPres_finalizeNode _ _ _)) (fun x => x) h
  simp only [createExecutableNode]
  split
  · exact h1
  · exact stInv_registerInFun _ _ h1

theorem gbPres_popObsoleteGo (seg : LogicalSegment) (hs : Bool) :
    ∀ (ds : List DecisionContext) (gb : GraphBuilder) (bi : Option Nat),
      GBPres gb (popObsoleteGo gb bi seg hs ds).1 := by
  intro ds
  induction ds with
  | nil => intro gb bi; exact gbPres_refl gb
  | cons top rest ih =>
    intro gb bi
    simp only [popObsoleteGo]
    split_ifs
    · exact ih gb none
    · exact gbPres_trans (gbPres_setCursor _ _) (ih _ none)
    · exact gbPres_refl gb

theorem stInv_popObsoleteDecisions (st : PState) (seg : LogicalSegment)
    (sk : Option Str) : StInv st → StInv (popObsoleteDecisions st seg sk) :=
  stInv_of (gbPres_popObsoleteGo seg (isElseOrThen sk) st.decisionStack st.gb
    st.currentBranchIndex) (fun x => x)

theorem gbPres_attachElse (gb : GraphBuilder) (ctx : DecisionContext)
    (nodeId : Nat) : GBPres gb (attachElseNodeToDecision gb ctx nodeId).1 := by
  simp only [attachElseNodeToDecision]
  exact gbPres_pushEdge gb _

theorem gbPres_attachThen (gb : GraphBuilder) (ctx : DecisionContext)
    (nodeId : Nat) (bi : Option Nat) :
    GBPres gb (attachThenNodeToDecision gb ctx nodeId bi).1 := by
  simp only [attachThenNodeToDecision]
  repeat' split
  all_goals first
    | exact gbPres_pushEdge gb _
    | exact gbPres_wireSequential gb _ true

theorem stInv_wireInto (st : PState) (nodeId : Nat) (seg : LogicalSegment)
    (sk : Option Str) : StInv st → StInv (wireIntoDecisionIfAny st nodeId seg sk).1 := by
  intro h
  unfold wireIntoDecisionIfAny
  split
  · exact h
  · split_ifs
    · exact h
    · exact stInv_of (gbPres_attachElse _ _ _) (fun x => x) h
    · exact stInv_of (gbPres_trans (gbPres_attachThen _ _ _ _)
        (gbPres_setCursor _ _)) (fun x => x) h

theorem stInv_handleExecutableNode (st : PState) (kind : NodeKind)
    (seg : LogicalSegment) (gram : Grammar) (tc : Str) (sk : Option Str)
    (hkind : kind ≠ NodeKind.Start) :
    StInv st → StInv (handleExecutableNode st kind seg gram tc sk) := by
  intro h
  simp only [handleExecutableNode]
  split
  · exact stInv_wireInto _ _ _ _ (stInv_createExecutableNode _ _ _ _ _ _ hkind h)
  · split
    · exact stInv_of (gbPres_wireSequential _ _ _) (fun x => x)
        (stInv_popObsoleteDecisions _ _ _
          (stInv_wireInto _ _ _ _ (stInv_createExecutableNode _ _ _ _ _ _ hkind h)))
    · exact stInv_popObsoleteDecisions _ _ _
        (stInv_wireInto _ _ _ _ (stInv_createExecutableNode _ _ _ _ _ _ hkind h))

theorem stInv_stackOnly {st : PState} (d : List DecisionContext) :
    StInv st → StInv { st with decisionStack := d } :=
  stInv_of ⟨fun x => x, fun x => x⟩ (fun x => x)

theorem stInv_handleBareElseThen (st : PState) (seg : LogicalSegment)
    (gram : Grammar) : StInv st → StInv (handleBareElseThen st seg gram) := by
  intro h
  have h0 := stInv_popObsoleteDecisions st seg gram.speckey h
  simp only [handleBareElseThen]
  repeat' split
  all_goals first
    | exact stInv_handleExecutableNode _ NodeKind.Process _ _ _ _ (by decide) h0
    | exact stInv_handleExecutableNode _ NodeKind.Process _ _ _ _ (by decide)
        (stInv_stackOnly _ h0)
    | exact stInv_of (gbPres_wireSequential _ _ _) (fun x => x)
        (stInv_wireInto _ _ _ _
          (stInv_createExecutableNode _ NodeKind.Process _ _ _ _ (by decide)
            (stInv_stackOnly _ h0)))
    | exact stInv_wireInto _ _ _ _
        (stInv_createExecutableNode _ NodeKind.Process _ _ _ _ (by decide)
          (stInv_stackOnly _ h0))

theorem stInv_funStackTail {st : PState} (rest : List FunContext)
    (h : FunStackInv st.funStack → FunStackInv rest) :
    StInv st → StInv { st with funStack := rest } :=
  stInv_of ⟨fun x => x, fun x => x⟩ h

theorem stInv_setGb {st : PState} (gb' : GraphBuilder)
    (hgb : GBPres st.gb gb') : StInv st → StInv { st with gb := gb' } :=
  fun ⟨hg, he, hf⟩ => ⟨hgb.1 hg, hgb.2 he, hf⟩

/-- Invariance under any state re-shelling that keeps the arena, counter,
edges and function stack. -/
theorem stInv_defeq {st st' : PState} (hn : st'.gb.nodes = st.gb.nodes)
    (hi : st'.gb.nextId = st.gb.nextId) (he : st'.gb.edges = st.gb.edges)
    (hf : FunStackInv st.funStack → FunStackInv st'.funStack)
    (h : StInv st) : StInv st' :=
  ⟨by unfold GoodNodes; rw [hn, hi]; exact h.1,
   by rw [he]; exact h.2.1, hf h.2.2⟩

theorem stInv_closeFun (st : PState) (seg : LogicalSegment) :
    StInv st → StInv (closeFun st seg).1 := by
  intro h
  unfold closeFun
  split
  · exact h
  · rename_i funCtx rest hfs
    lift_lets
    extract_lets te stA gbA stB ft fg p stC gbB lb gbC stIf
    have h1 : StInv stA :=
      stInv_funStackTail rest
        (fun hfi fc hfc => hfi fc (hfs ▸ List.mem_cons_of_mem _ hfc)) h
    split
    · exact h
    · unfold_let stIf
      split
      · have hB : StInv stB := stInv_setGb _ (gbPres_updateMeta _ _ _) h1
        have hC : StInv stC :=
          stInv_createExecutableNode _ NodeKind.Process _ _ _ _ (by decide) hB
        have hBig : StInv { stC with
            gb := { gbC with lastExecutableNode := some p.2 } } :=
          stInv_setGb _
            (gbPres_trans (gbPres_updateMeta _ _ _)
              (gbPres_trans (gbPres_pushEdge _ _) (gbPres_setCursor _ _))) hC
        exact stInv_defeq rfl rfl rfl (fun x => x) hBig
      · exact stInv_defeq rfl rfl rfl (fun x => x) h1

theorem stInv_handleFunOpen (st : PState) (seg : LogicalSegment)
    (gram : Grammar) : StInv st → StInv (handleFunOpen st seg gram) := by
  intro h
  simp only [handleFunOpen]
  repeat' split
  all_goals
    refine stInv_of
      (gbPres_trans (gbPres_updateMeta _ _ _) (gbPres_wireSequential _ _ _))
      ?_
      (stInv_createExecutableNode _ NodeKind.Process _ _ _ _ (by decide) h)
  all_goals
    intro hfi fc hfc
    rcases List.mem_cons.mp hfc with rfl | hfc
    · exact ⟨fun _ => rfl, fun _ => rfl⟩
    · exact hfi fc hfc

theorem stInv_handleEnd (st : PState) (seg : LogicalSegment)
    (gram : Grammar) : StInv st → StInv (handleEnd st seg gram) := by
  intro h
  unfold handleEnd
  lift_lets
  extract_lets ct p up stA ir stTh pv pr sb
  have hA : StInv stA :=
    stInv_setGb _ (gbPres_updateMeta _ _ _)
      (stInv_createExecutableNode _ NodeKind.End _ _ _ _ (by decide) h)
  have hTh : StInv stTh := by
    unfold_let stTh
    split
    · exact stInv_wireInto _ _ _ _ hA
    · exact stInv_defeq rfl rfl rfl (fun x => x) hA
  split
  · exact stInv_defeq rfl rfl rfl (fun x => x) hTh
  · exact stInv_defeq rfl rfl rfl (fun x => x) hA

theorem stInv_handleDec (st : PState) (seg : LogicalSegment)
    (gram : Grammar) : StInv st → StInv (handleDec st seg gram) := by
  intro h
  unfold handleDec
  lift_lets
  extract_lets stA stB ht lbs p stC stD stE nc
  have hB : StInv stB :=
    stInv_defeq rfl rfl rfl (fun x => x) (stInv_popObsoleteDecisions _ _ _ h)
  have hC : StInv stC :=
    stInv_createExecutableNode _ NodeKind.Decision _ _ _ _ (by decide) hB
  have hD : StInv stD := by
    unfold_let stD
    rcases hds : stC.decisionStack with _ | ⟨ctx, rest⟩ <;> simp only []
    · split
      · exact stInv_setGb _ (gbPres_wireSequential _ _ _) hC
      · exact hC
    · split_ifs
      all_goals first
        | exact stInv_of (gbPres_attachElse _ _ _) (fun x => x) hC
        | exact stInv_of (gbPres_trans (gbPres_attachThen _ _ _ _)
            (gbPres_setCursor _ _)) (fun x => x) hC
        | exact stInv_setGb _ (gbPres_wireSequential _ _ _) hC
        | exact hC
  have hE : StInv stE := by
    unfold_let stE
    split
    · exact stInv_setGb _ (gbPres_updateMeta _ _ _) hD
    · exact hD
  exact stInv_defeq rfl rfl rfl (fun x => x) hE

theorem stInv_handleConnector (st : PState) (seg : LogicalSegment)
    (gram : Grammar) : StInv st → StInv (handleConnector st seg gram) := by
  intro h
  unfold handleConnector
  lift_lets
  extract_lets tx p s1 gbc u1 stB stC stD s2 stE
  have hB : StInv stB :=
    stInv_setGb _ ⟨fun x => x, fun x => x⟩
      (stInv_createExecutableNode _ NodeKind.Connector _ _ _ _ (by decide) h)
  have hC : StInv stC := stInv_popObsoleteDecisions _ _ _ hB
  have hD : StInv stD := by
    unfold_let stD
    split
    · exact stInv_setGb _ (gbPres_computeConnectorFanin _ _) hC
    · exact hC
  have hE : StInv stE := stInv_setGb _ ⟨fun x => x, fun x => x⟩ hD
  split
  · exact stInv_setGb _ (gbPres_wireSequential _ _ _) hE
  · exact hE

theorem stInv_processSeg (st : PState) (seg : LogicalSegment) :
    StInv st → StInv (processSeg st seg) := by
  intro h
  unfold processSeg
  split
  · split
    · exact stInv_of (gbPres_updateMeta _ _ _) (fun x => x) h
    · exact h
  · lift_lets
    extract_lets cf
    have hcf : StInv cf.1 := stInv_closeFun st seg h
    split
    · exact hcf
    · split
      · exact hcf
      · split_ifs
        · exact stInv_handleFunOpen _ _ _ hcf
        · exact stInv_handleBareElseThen _ _ _ hcf
        · exact stInv_handleEnd _ _ _ hcf
        · exact stInv_handleExecutableNode _ NodeKind.Input _ _ _ _ (by decide) hcf
        · exact stInv_handleExecutableNode _ NodeKind.Output _ _ _ _ (by decide) hcf
        · exact stInv_handleDec _ _ _ hcf
        · exact stInv_handleConnector _ _ _ hcf
        · exact stInv_handleExecutableNode _ NodeKind.Process _ _ _ _ (by decide) hcf

theorem stInv_init : StInv initPState := by
  refine ⟨⟨⟨startNode0, [], rfl, rfl, rfl, ?_⟩, ?_, ?_⟩, ?_, ?_⟩
  · intro n hn
    exact absurd hn (List.not_mem_nil n)
  · exact List.chain'_singleton _
  · intro n hn
    rcases List.mem_singleton.mp hn with rfl
    exact Nat.zero_lt_one
  · exact List.Pairwise.nil
  · intro fc hfc
    exact absurd hfc (List.not_mem_nil fc)

theorem stInv_foldl (segs : List LogicalSegment) :
    ∀ st : PState, StInv st → StInv (segs.foldl processSeg st) := by
  induction segs with
  | nil => intro st h; exact h
  | cons seg segs ih =>
    intro st h
    rw [List.foldl_cons]
    exact ih _ (stInv_processSeg st seg h)

/-! ## Claims C4 and C5: structural invariants of the final graph -/

/-- The structural facts shared by the C4 and C5 proofs: the finished
node arena is headed by the Start node, Start-free afterwards, strictly
increasing in id, duplicate-free on edges, and ends with the synthesized
End node recorded as `endNodeId`. -/
theorem parseivx_core (text : Str) :
    (∃ h t, (parseivx text).nodes = h :: t ∧ h.id = 0 ∧
        h.kind = NodeKind.Start ∧ ∀ n ∈ t, n.kind ≠ NodeKind.Start) ∧
    List.Chain' (fun a b => a.id < b.id) (parseivx text).nodes ∧
    EdgeNoDup (parseivx text).edges ∧
    ∃ en, (parseivx text).nodes.getLast? = some en ∧
      en.kind = NodeKind.End ∧ (parseivx text).endNodeId = some en.id := by
  unfold parseivx
  lift_lets
  extract_lets segs stF gb1 nse gb2 gb3 ex ft el q gbF
  have hst : StInv stF := stInv_foldl segs initPState stInv_init
  have h1 : GBPres stF.gb gb1 := gbPres_resolvePendingNext _
  have h2 : GBPres gb1 gb2 := by
    unfold_let gb2
    split
    · split
      · exact gbPres_pushEdge _ _
      · exact gbPres_refl _
    · exact gbPres_refl _
  have h3 : GBPres gb2 gb3 := by
    unfold_let gb3
    rcases hnse : nse with _ | ⟨f, _ | ⟨sN, rest⟩⟩ <;> simp only []
    · exact gbPres_refl _
    · exact gbPres_refl _
    · split
      · exact gbPres_pushEdge _ _
      · exact gbPres_refl _
  have h4 : GBPres gb3 gbF :=
    gbPres_trans (gbPres_createImplicitEnd _ _ _ _) (gbPres_pushEdge _ _)
  have hall : GBPres stF.gb gbF :=
    gbPres_trans h1 (gbPres_trans h2 (gbPres_trans h3 h4))
  obtain ⟨⟨h, t, hcons, hid0, hkind, htail⟩, hchain, hbound⟩ := hall.1 hst.1
  refine ⟨⟨h, t, hcons, hid0, hkind, htail⟩, hchain, hall.2 hst.2.1,
    q.2, ?_, rfl, rfl⟩
  exact List.getLast?_concat gb3.nodes

/-- C4: for every input text, `parseivx` returns a graph with exactly one
`Start` node, which has id 0 and heads the creation-ordered node list;
ids are strictly increasing (hence unique) in creation order; and the node
list ends with an `End` node — the synthesized one — whose id is recorded
as the graph's `endNodeId`. -/
theorem c4_parseivx_invariants (text : Str) :
    ((parseivx text).nodes.filter
        (fun n => decide (n.kind = NodeKind.Start))).length = 1 ∧
    (∃ h t, (parseivx text).nodes = h :: t ∧ h.id = 0 ∧
        h.kind = NodeKind.Start) ∧
    List.Chain' (fun a b => a.id < b.id) (parseivx text).nodes ∧
    ((parseivx text).nodes.map (fun n => n.id)).Nodup ∧
    ∃ en, (parseivx text).nodes.getLast? = some en ∧
      en.kind = NodeKind.End ∧ (parseivx text).endNodeId = some en.id := by
  obtain ⟨⟨h, t, hcons, hid0, hkind, htail⟩, hchain, _, hlast⟩ :=
    parseivx_core text
  refine ⟨?_, ⟨h, t, hcons, hid0, hkind⟩, hchain, ?_, hlast⟩
  · rw [hcons, List.filter_cons_of_pos (by simp [hkind]),
      List.filter_eq_nil_iff.mpr (fun n hn => by
        simp only [decide_eq_true_eq]
        exact htail n hn)]
    rfl
  · have hm : ((parseivx text).nodes.map (fun n => n.id)).Chain' (· < ·) :=
      (List.chain'_map (fun n : Node => n.id)).mpr hchain
    exact (List.chain'_iff_pairwise.mp hm).imp Nat.ne_of_lt

/-- C5: for every input text, the edge list of the graph returned by
`parseivx` has pairwise distinct `(from, to, label)` triples, and the
deduplicated push is a no-op on an edge whose triple is already present. -/
theorem c5_edge_dedup :
    (∀ text : Str, EdgeNoDup (parseivx text).edges) ∧
    ∀ (es : List Edge) (e : Edge),
      hasEdge es e.fro e.toN e.label = true → pushEdgeL es e = es := by
  refine ⟨fun text => (parseivx_core text).2.2.1, fun es e h => ?_⟩
  unfold pushEdgeL
  rw [if_pos h]

/-- C5 witness: the dedup facts at a concrete input and a concrete
duplicate edge. -/
theorem c5_witness :
    EdgeNoDup (parseivx (str "do a")).edges ∧
    pushEdgeL [{ fro := 0, toN := 1, label := [] }]
        { fro := 0, toN := 1, label := [] } =
      [{ fro := 0, toN := 1, label := [] }] :=
  ⟨c5_edge_dedup.1 (str "do a"),
   c5_edge_dedup.2 [{ fro := 0, toN := 1, label := [] }]
     { fro := 0, toN := 1, label := [] } (by decide)⟩

/-! ## Claim C8: totality and fault-freedom -/

/-- A string whose JS `trim` is empty also has an empty `trimEnd`. -/
theorem trimEnd_eq_nil (s : Str) (h : trimStr s = []) : trimEndStr s = [] := by
  unfold trimStr trimStartStr trimEndStr at *
  rw [List.reverse_eq_nil_iff] at h ⊢
  rw [List.dropWhile_eq_nil_iff] at h ⊢
  intro x hx
  rw [List.mem_reverse] at hx
  rcases List.mem_append.mp
      ((List.takeWhile_append_dropWhile jsWs s) ▸ hx) with hx1 | hx2
  · exact List.mem_takeWhile_imp hx1
  · exact h x (List.mem_reverse.mpr hx2)

/-- When `trim` is non-empty, `trimEnd` only differs from it by the kept
whitespace prefix. -/
theorem trimEnd_eq_prefix_append (s : Str) (h : trimStr s ≠ []) :
    trimEndStr s = s.takeWhile jsWs ++ trimStr s := by
  have hne : ((s.dropWhile jsWs).reverse.dropWhile jsWs).isEmpty = false := by
    rw [List.isEmpty_eq_false]
    intro hnil
    exact h (by unfold trimStr trimStartStr trimEndStr; rw [hnil]; rfl)
  conv_lhs => rw [trimEndStr, ← List.takeWhile_append_dropWhile jsWs s]
  rw [List.reverse_append, List.dropWhile_append, hne]
  simp only [Bool.false_eq_true, if_false, List.reverse_append,
    List.reverse_reverse]
  rfl

/-- When `trim` is non-empty, `trimEnd` ends in the same character. -/
theorem trimEnd_getLast (s : Str) (h : trimStr s ≠ []) :
    (trimEndStr s).getLast? = (trimStr s).getLast? := by
  rw [trimEnd_eq_prefix_append s h]
  exact List.getLast?_append_of_ne_nil _ h

/-- A segment with no grammar cannot close a function block: its code has
no trailing brace. -/
theorem closeFun_of_segGram_none (st : PState) (seg : LogicalSegment)
    (h : SegGram seg = none) : closeFun st seg = (st, false) := by
  have hcond : trimStr seg.code = [] ∨
      (trimStr seg.code).all (fun c => c = '\\') = true := by
    by_contra hc
    unfold SegGram at h
    rw [if_neg hc] at h
    exact Option.noConfusion h
  have hlast : ¬((trimEndStr seg.code).getLast? = some '\x7d') := by
    by_cases hnil : trimStr seg.code = []
    · rw [trimEnd_eq_nil _ hnil]
      intro hx
      exact Option.noConfusion hx
    · rw [trimEnd_getLast _ hnil]
      rcases hcond with hc | hall
      · exact absurd hc hnil
      · intro hx
        have hmem := List.mem_of_mem_getLast? (Option.mem_def.mpr hx)
        have := List.all_eq_true.mp hall _ hmem
        simp at this
  unfold closeFun
  split
  · rfl
  · simp only []
    rw [if_pos hlast]

/-- `updateMeta` never changes a node's id or kind. -/
theorem nodeShape_updateMeta (gb : GraphBuilder) (i : Nat) (f : Str → Str) :
    nodeShape (gb.updateMeta i f).nodes = nodeShape gb.nodes := by
  unfold nodeShape GraphBuilder.updateMeta
  simp only [List.map_map]
  apply List.map_congr_left
  intro n _
  by_cases hn : n.id = i <;> simp [Function.comp, hn]

/-- A segment with no grammar produces no node (and changes no kind). -/
theorem processSeg_segGram_none (st : PState) (seg : LogicalSegment)
    (h : SegGram seg = none) :
    nodeShape (processSeg st seg).gb.nodes = nodeShape st.gb.nodes := by
  unfold processSeg
  split
  · split
    · exact nodeShape_updateMeta _ _ _
    · rfl
  · rw [closeFun_of_segGram_none st seg h, h]
    rfl

/-- C8: the parser core and validator are total and fault-free: a segment
that resolves to no grammar leaves the node arena's ids and kinds
untouched (no node produced), and along every parse each open function
context satisfies the invariant guarding the source's
`funCtx.lastBodyNodeId!` assertion (a recorded last body node exactly
when the body is non-empty). -/
theorem c8_no_fault :
    (∀ (st : PState) (seg : LogicalSegment), SegGram seg = none →
        nodeShape (processSeg st seg).gb.nodes = nodeShape st.gb.nodes) ∧
    ∀ segs : List LogicalSegment,
      FunStackInv ((segs.foldl processSeg initPState).funStack) :=
  ⟨processSeg_segGram_none,
   fun segs => (stInv_foldl segs initPState stInv_init).2.2⟩

/-- A whitespace-only segment, used as the C8 witness input. -/
def wsSeg : LogicalSegment :=
  { physicalLine := 0, segmentIndex := 0, indent := 0,
    raw := str "  ", code := str "  ", comment := [] }

/-- C8 witness: the no-node property at a concrete whitespace-only
segment, and the function-stack invariant after a concrete parse. -/
theorem c8_witness :
    SegGram wsSeg = none ∧
    nodeShape (processSeg initPState wsSeg).gb.nodes =
      nodeShape initPState.gb.nodes ∧
    FunStackInv (([] : List LogicalSegment).foldl processSeg
      initPState).funStack :=
  ⟨by decide,
   c8_no_fault.1 initPState wsSeg (by decide),
   c8_no_fault.2 []⟩

end IVX
